import Mathlib

/-!
# Metric enrichment processors

A shallow embedding of `plugins/processors/graphql/graphql.go` (the streaming
processor) and `plugins/processors/netbox/netbox.go` (the batch processor),
followed by theorems about the template analyser, the field extractor, the
enrichment worker and the batch loop.

Conventions of the embedding.

* A Go map with string keys is an association list. The order of the list is
  the order in which a `range` statement enumerates the map; Go leaves that
  order unspecified, so a statement quantified over all lists covers every
  order the runtime may choose.
* A decoded JSON value (`interface{}` as produced by `encoding/json`) is a
  value of `Json`. Numbers are `float64`; they are carried as their bit
  pattern and their formatting is a parameter.
* The network is a parameter: one round-trip yields an `Outcome`.
-/

/-! ## Go maps -/

/-- Lookup `m[key]` with the comma-ok result. -/
def mapGet {β : Type} (key : String) : List (String × β) → Option β
  | [] => none
  | (k, v) :: rest => if k = key then some v else mapGet key rest

/-- Assignment `m[key] = val`: an existing entry is overwritten, a new key is added. -/
def mapSet {β : Type} (key : String) (val : β) : List (String × β) → List (String × β)
  | [] => [(key, val)]
  | (k, v) :: rest => if k = key then (k, val) :: rest else (k, v) :: mapSet key val rest

/-- The keys of a map, in enumeration order. -/
def mapKeys {β : Type} (m : List (String × β)) : List String := m.map Prod.fst

/-! ## Decoded JSON values -/

/-- A value decoded by `encoding/json` into `interface{}`:
`nil`, `bool`, `float64`, `string`, `[]interface{}` or `map[string]interface{}`. -/
inductive Json where
  | null
  | bool (b : Bool)
  | num (bits : Nat)
  | str (s : String)
  | arr (items : List Json)
  | obj (members : List (String × Json))

/-- A scalar node: string, number, bool or null. -/
def Json.isScalar : Json → Bool
  | .arr _ => false
  | .obj _ => false
  | _ => true

/-! ## Measurements -/

/-- A typed field value of a measurement. -/
inductive FieldValue where
  | int (i : Int)
  | uint (n : Nat)
  | float (bits : Nat)
  | str (s : String)
  | bool (b : Bool)
deriving DecidableEq

/-- Modelled from the spec: `telegraf.Metric` is declared outside the two processor
files. Section 3 describes it as a record with a name, a mapping of string tag keys
to string tag values (keys unique) and a mapping of field keys to typed values; the
glossary adds that it is timestamped. -/
structure Metric where
  name : String
  tags : List (String × String)
  fields : List (String × FieldValue)
  time : Int
deriving DecidableEq

/-- Modelled from the spec: `metric.Name()`. -/
def Metric.Name (m : Metric) : String := m.name

/-- Modelled from the spec: `metric.GetTag(key)` looks the key up among the tags. -/
def Metric.GetTag (m : Metric) (key : String) : Option String := mapGet key m.tags

/-- Modelled from the spec: `metric.AddTag(key, value)` sets the tag `key` to `value`,
overwriting a tag of that name; name, fields and time are untouched. -/
def Metric.AddTag (m : Metric) (key value : String) : Metric :=
  { m with tags := mapSet key value m.tags }

/-! ## Query template analyser -/

/-- The regexp class `\w`, equally `[a-zA-Z0-9_]`. -/
def isWordChar (c : Char) : Bool := c.isAlphanum || c = '_'

/-- The regexp class `\s`: tab, newline, form feed, carriage return, space. -/
def isSpaceChar (c : Char) : Bool :=
  c = ' ' || c = '\t' || c = '\n' || c = Char.ofNat 12 || c = '\r'

/-- Submatch 1 of every match of `\$(\w+)`, in order of occurrence
(`FindAllStringSubmatch(query, -1)`). The first argument counts the characters
of the current match that are still to be stepped over. -/
def varMatches : Nat → List Char → List (List Char)
  | _, [] => []
  | skip + 1, _ :: rest => varMatches skip rest
  | 0, c :: rest =>
      if c = '$' ∧ rest.takeWhile isWordChar ≠ [] then
        rest.takeWhile isWordChar :: varMatches (rest.takeWhile isWordChar).length rest
      else varMatches 0 rest

/-- The loop of `ParseGraphQLVars`: the state is `(tags.Values, seen)`. -/
def collectVars : List String → List String × List String → List String × List String
  | [], st => st
  | varName :: rest, (values, seen) =>
      if varName ∈ seen then collectVars rest (values, seen)
      else collectVars rest (values ++ [varName], varName :: seen)

/-- `ParseGraphQLVars` (graphql.go 105-119, netbox.go 40-54; the two bodies are the
same): the `Values` of the returned `MetricTags`. -/
def ParseGraphQLVars (query : String) : List String :=
  (collectVars ((varMatches 0 query.data).map String.mk) ([], [])).1

/-- The literal `__tag_`. -/
def tagMarker : List Char := ['_', '_', 't', 'a', 'g', '_']

/-- The regexp assertion `\b` between two neighbouring characters (absent at either
end of the text): exactly one of the two is a word character. -/
def wordBoundary (before after : Option Char) : Bool :=
  (before.any isWordChar) != (after.any isWordChar)

/-- A match of `\b(__tag_[a-zA-Z0-9_]+)\s*:\s*[a-zA-Z0-9_]+` that starts at the head
of `s`, where `before` is the character in front of `s`: submatch 1 and the length of
the whole match. Every repetition is followed by a character outside its class, so
each one takes its maximal run. -/
def matchTagAt (before : Option Char) (s : List Char) : Option (List Char × Nat) :=
  if wordBoundary before s.head? ∧ tagMarker.isPrefixOf s then
    let afterLit := s.drop tagMarker.length
    let name := afterLit.takeWhile isWordChar
    if name = [] then none
    else
      match ((afterLit.dropWhile isWordChar).dropWhile isSpaceChar) with
      | ':' :: afterColon =>
          let sel := afterColon.dropWhile isSpaceChar
          if sel.takeWhile isWordChar = [] then none
          else some (tagMarker ++ name, s.length - (sel.dropWhile isWordChar).length)
      | _ => none
  else none

/-- Submatch 1 of every match of the marker pattern, in order of occurrence
(`FindAllStringSubmatch(query, -1)`); the search resumes where a match ends. -/
def tagMatches : Nat → Option Char → List Char → List (List Char)
  | _, _, [] => []
  | skip + 1, _, c :: rest => tagMatches skip (some c) rest
  | 0, before, c :: rest =>
      match matchTagAt before (c :: rest) with
      | some (marker, len) => marker :: tagMatches (len - 1) (some c) rest
      | none => tagMatches 0 (some c) rest

/-- `strings.TrimPrefix(s, pre)`. -/
def TrimPrefixOf (s pre : List Char) : List Char :=
  if pre.isPrefixOf s then s.drop pre.length else s

/-- The loop of `ParseGraphQLTags`: `aliasMap[TrimPrefix(alias, "__tag_")] = alias`
for every match, in order. -/
def collectTags : List (List Char) → List (String × String) → List (String × String)
  | [], aliasMap => aliasMap
  | marker :: rest, aliasMap =>
      collectTags rest (mapSet (String.mk (TrimPrefixOf marker tagMarker)) (String.mk marker) aliasMap)

/-- `ParseGraphQLTags` (graphql.go 121-134, netbox.go 57-70; the two bodies are the
same): the map from clean key to marker token. -/
def ParseGraphQLTags (query : String) : List (String × String) :=
  collectTags (tagMatches 0 none query.data) []

/-! ## Field extractor -/

/-- The inner loop of `extractAliasedFields`: for every `(cleanKey, marker)` of the
alias map, `if k == marker then result[cleanKey] = val`. -/
def recordMatches (k : String) (val : Json) :
    List (String × String) → List (String × Json) → List (String × Json)
  | [], result => result
  | (cleanKey, marker) :: rest, result =>
      recordMatches k val rest (if k = marker then mapSet cleanKey val result else result)

mutual
/-- `extractAliasedFields(data, aliasMap, result)` (graphql.go 136-152, netbox.go
73-89; the two bodies are the same). The result map is passed in and returned. -/
def extractAliasedFields : Json → List (String × String) → List (String × Json) → List (String × Json)
  | .obj members, aliasMap, result => extractMembers members aliasMap result
  | .arr items, aliasMap, result => extractItems items aliasMap result
  | .null, _, result => result
  | .bool _, _, result => result
  | .num _, _, result => result
  | .str _, _, result => result
/-- The loop `for k, val := range v` over the members of an object node. -/
def extractMembers : List (String × Json) → List (String × String) → List (String × Json) → List (String × Json)
  | [], _, result => result
  | (k, val) :: rest, aliasMap, result =>
      extractMembers rest aliasMap (extractAliasedFields val aliasMap (recordMatches k val aliasMap result))
/-- The loop `for _, item := range v` over the elements of a list node. -/
def extractItems : List Json → List (String × String) → List (String × Json) → List (String × Json)
  | [], _, result => result
  | item :: rest, aliasMap, result =>
      extractItems rest aliasMap (extractAliasedFields item aliasMap result)
end

/-! ## Stringification -/

/-- Insertion of a printed member into a list sorted by key (byte order of the keys). -/
def insertByKey (p : String × String) : List (String × String) → List (String × String)
  | [] => [p]
  | q :: rest => if p.1.data ≤ q.1.data then p :: q :: rest else q :: insertByKey p rest

/-- Printed members sorted by key, as `fmt` prints a map. -/
def sortByKey : List (String × String) → List (String × String)
  | [] => []
  | p :: rest => insertByKey p (sortByKey rest)

mutual
/-- `fmt.Sprintf("%v", val)` for a decoded JSON value. `fmtFloat` is the `%v`
formatting of a `float64`, which is not modelled. -/
def sprintV (fmtFloat : Nat → String) : Json → String
  | .null => "<nil>"
  | .bool b => if b then "true" else "false"
  | .num bits => fmtFloat bits
  | .str s => s
  | .arr items => "[" ++ " ".intercalate (sprintItems fmtFloat items) ++ "]"
  | .obj members =>
      "map[" ++ " ".intercalate ((sortByKey (sprintMembers fmtFloat members)).map
        (fun p => p.1 ++ ":" ++ p.2)) ++ "]"
/-- The elements of a list node, each printed with `%v`. -/
def sprintItems (fmtFloat : Nat → String) : List Json → List String
  | [] => []
  | item :: rest => sprintV fmtFloat item :: sprintItems fmtFloat rest
/-- The members of an object node, each value printed with `%v`. -/
def sprintMembers (fmtFloat : Nat → String) : List (String × Json) → List (String × String)
  | [] => []
  | (k, val) :: rest => (k, sprintV fmtFloat val) :: sprintMembers fmtFloat rest
end

/-- The loop `for key, val := range result { metric.AddTag(key, fmt.Sprintf("%v", val)) }`. -/
def addTags (fmtFloat : Nat → String) : List (String × Json) → Metric → Metric
  | [], metric => metric
  | (key, val) :: rest, metric => addTags fmtFloat rest (metric.AddTag key (sprintV fmtFloat val))

/-! ## The network -/

/-- The request body, `GraphQLRequest`. A nil `Variables` map is the empty list. -/
structure GraphQLRequest where
  Query : String
  Variables : List (String × String)
deriving DecidableEq

/-- The POST request handed to `http.DefaultClient.Do`. -/
structure HttpRequest where
  method : String
  url : String
  contentType : String
  authorization : String
  body : GraphQLRequest
deriving DecidableEq

/-- What one round-trip yields: `Do` fails; `Do` succeeds and `io.ReadAll` fails; or the
body is read. A body that was read is carried as the value `encoding/json` decodes it
to, `none` when that decoding returns an error (the bytes are not JSON, or they hold a
number outside the range of `float64`). -/
inductive Outcome where
  | transportError
  | readError (status : Nat)
  | response (status : Nat) (body : Option Json)

/-- `json.Unmarshal(body, &raw)` with `raw` a nil `map[string]interface{}`: an object
fills the map, `null` leaves it nil, anything else is an error. -/
def unmarshalMap : Option Json → Option (List (String × Json))
  | some (.obj members) => some members
  | some .null => some []
  | _ => none

/-! ## The streaming processor -/

/-- The configuration and the start-up state of the streaming processor. -/
structure GraphQLProcessor where
  GraphQLQuery : String
  Url : String
  Token : String
  MaxParallel : Int
  parsedVars : List String
  aliasMap : List (String × String)
deriving DecidableEq

/-- What `Start` computes from the template: `parsedVars` and `aliasMap`. -/
def GraphQLProcessor.Start (g : GraphQLProcessor) : GraphQLProcessor :=
  { g with parsedVars := ParseGraphQLVars g.GraphQLQuery, aliasMap := ParseGraphQLTags g.GraphQLQuery }

/-- The loop of graphql.go 161-168 over `gqlVars.Values`; the state is
`requestBody.Variables`. -/
def bindVariables (metric : Metric) : List String → List (String × String) → List (String × String)
  | [], vars => vars
  | gqlVar :: rest, vars =>
      match metric.GetTag gqlVar with
      | some value => bindVariables metric rest [(gqlVar, value)]
      | none => bindVariables metric rest vars

/-- The `requestBody` of graphql.go 158-168. -/
def GraphQLProcessor.requestBody (g : GraphQLProcessor) (metric : Metric) : GraphQLRequest :=
  { Query := g.GraphQLQuery, Variables := bindVariables metric g.parsedVars [] }

/-- The request of graphql.go 176-182. -/
def GraphQLProcessor.request (g : GraphQLProcessor) (metric : Metric) : HttpRequest :=
  { method := "POST", url := g.Url, contentType := "application/json",
    authorization := "Token " ++ g.Token, body := g.requestBody metric }

/-- `processMetric` (graphql.go 154-254). `urlParses` tells whether `http.NewRequest`
accepts the configured URL, `roundTrip` is the network call and `fmtFloat` the
formatting of numbers. -/
def GraphQLProcessor.processMetric (g : GraphQLProcessor) (fmtFloat : Nat → String)
    (urlParses : String → Bool) (roundTrip : HttpRequest → Outcome) (metric : Metric) :
    List Metric :=
  if urlParses g.Url = false then [metric]
  else
    match roundTrip (g.request metric) with
    | .transportError => [metric]
    | .readError _ => [metric]
    | .response _ body =>
        match unmarshalMap body with
        | none => [metric]
        | some raw =>
            match mapGet "data" raw with
            | some (.obj data) =>
                match mapGet "__root_element" data with
                | none => [metric]
                | some (.arr []) => [metric]
                | some (.arr (firstItem :: _)) =>
                    [addTags fmtFloat (extractAliasedFields firstItem g.aliasMap []) metric]
                | some (.obj v) =>
                    [addTags fmtFloat (extractAliasedFields (.obj v) g.aliasMap []) metric]
                | some _ => [metric]
            | _ => [metric]

/-! ## The batch processor -/

/-- The configuration of the batch processor. -/
structure NetboxProcessor where
  GraphQLQuery : String
  Url : String
  Token : String
deriving DecidableEq

/-- The request of netbox.go 99-118 for one variable and its tag value. -/
def NetboxProcessor.request (nb : NetboxProcessor) (gqlVar value : String) : HttpRequest :=
  { method := "POST", url := nb.Url, contentType := "application/json",
    authorization := "Token " ++ nb.Token,
    body := { Query := nb.GraphQLQuery, Variables := [(gqlVar, value)] } }

/-- The body of the inner loop of `Apply` (netbox.go 97-158) for one variable and one
measurement. The state threaded through is the list of requests sent so far;
`service n req` is the outcome of the call number `n`. -/
def NetboxProcessor.enrich (nb : NetboxProcessor) (fmtFloat : Nat → String)
    (urlParses : String → Bool) (service : Nat → HttpRequest → Outcome)
    (aliasMap : List (String × String)) (gqlVar : String) (metric : Metric)
    (sent : List HttpRequest) : Metric × List HttpRequest :=
  match metric.GetTag gqlVar with
  | none => (metric, sent)
  | some value =>
      if urlParses nb.Url = false then (metric, sent)
      else
        match service sent.length (nb.request gqlVar value) with
        | .transportError => (metric, sent ++ [nb.request gqlVar value])
        | .readError _ => (metric, sent ++ [nb.request gqlVar value])
        | .response _ body =>
            match unmarshalMap body with
            | none => (metric, sent ++ [nb.request gqlVar value])
            | some raw =>
                match mapGet "data" raw with
                | some (.obj data) =>
                    match mapGet "device_list" data with
                    | some (.arr (firstDevice :: _)) =>
                        (addTags fmtFloat (extractAliasedFields firstDevice aliasMap []) metric,
                          sent ++ [nb.request gqlVar value])
                    | _ => (metric, sent ++ [nb.request gqlVar value])
                | _ => (metric, sent ++ [nb.request gqlVar value])

/-- The inner loop `for _, metric := range in` of `Apply` for one variable. -/
def NetboxProcessor.applyVar (nb : NetboxProcessor) (fmtFloat : Nat → String)
    (urlParses : String → Bool) (service : Nat → HttpRequest → Outcome)
    (aliasMap : List (String × String)) (gqlVar : String) :
    List Metric → List HttpRequest → List Metric × List HttpRequest
  | [], sent => ([], sent)
  | metric :: rest, sent =>
      let step := nb.enrich fmtFloat urlParses service aliasMap gqlVar metric sent
      let tail := NetboxProcessor.applyVar nb fmtFloat urlParses service aliasMap gqlVar rest step.2
      (step.1 :: tail.1, tail.2)

/-- The outer loop `for _, gqlVar := range gqlVars.Values` of `Apply`. -/
def NetboxProcessor.applyVars (nb : NetboxProcessor) (fmtFloat : Nat → String)
    (urlParses : String → Bool) (service : Nat → HttpRequest → Outcome)
    (aliasMap : List (String × String)) :
    List String → List Metric → List HttpRequest → List Metric × List HttpRequest
  | [], metrics, sent => (metrics, sent)
  | gqlVar :: rest, metrics, sent =>
      let pass := nb.applyVar fmtFloat urlParses service aliasMap gqlVar metrics sent
      NetboxProcessor.applyVars nb fmtFloat urlParses service aliasMap rest pass.1 pass.2

/-- `Apply` (netbox.go 91-162): the returned measurements and the requests sent, in
order. -/
def NetboxProcessor.Apply (nb : NetboxProcessor) (fmtFloat : Nat → String)
    (urlParses : String → Bool) (service : Nat → HttpRequest → Outcome)
    (metrics : List Metric) : List Metric × List HttpRequest :=
  nb.applyVars fmtFloat urlParses service (ParseGraphQLTags nb.GraphQLQuery)
    (ParseGraphQLVars nb.GraphQLQuery) metrics []

/-! ## Notions of the specification -/

/-- The node the enrichment client hands to the extractor: the root element when it
is an object, its first element when it is a non-empty list. -/
def rootNode : Json → Option Json
  | .obj v => some (.obj v)
  | .arr (firstItem :: _) => some firstItem
  | _ => none

/-- The failures of one round-trip: the call fails, the body cannot be read, the body
does not decode as a JSON object, the object has no object-valued `data` member,
`data` has no `__root_element` member, or the root element is neither a list nor an
object. -/
inductive FailedOutcome : Outcome → Prop where
  | transport : FailedOutcome .transportError
  | unreadable (status : Nat) : FailedOutcome (.readError status)
  | undecodable (status : Nat) (body : Option Json) :
      (∀ members, body ≠ some (.obj members)) → FailedOutcome (.response status body)
  | noData (status : Nat) (members : List (String × Json)) :
      (∀ data, mapGet "data" members ≠ some (.obj data)) →
      FailedOutcome (.response status (some (.obj members)))
  | noRoot (status : Nat) (members data : List (String × Json)) :
      mapGet "data" members = some (.obj data) → mapGet "__root_element" data = none →
      FailedOutcome (.response status (some (.obj members)))
  | scalarRoot (status : Nat) (members data : List (String × Json)) (root : Json) :
      mapGet "data" members = some (.obj data) → mapGet "__root_element" data = some root →
      root.isScalar = true → FailedOutcome (.response status (some (.obj members)))

/-- Two measurements that differ at most in their tags. -/
def sameButTags (a b : Metric) : Prop := ∃ tags, b = { a with tags := tags }

/-- An occurrence of the variable pattern at offset `i` of the text: a `$`
immediately followed by the maximal non-empty run `name` of word characters. -/
def VarOccursAt (text : List Char) (i : Nat) (name : List Char) : Prop :=
  ∃ post, text.drop i = '$' :: name ++ post ∧ name ≠ [] ∧
    (∀ c ∈ name, isWordChar c = true) ∧ (∀ c ∈ post.head?, isWordChar c = false)

/-- An occurrence of the marker pattern at the head of `s`, with `before` the
character in front of it: a word boundary, `__tag_`, a non-empty run `name` of word
characters, optional whitespace, a colon, optional whitespace and a non-empty
selector run that ends the match. -/
def MarkerOccurs (before : Option Char) (s name : List Char) (len : Nat) : Prop :=
  ∃ ws1 ws2 sel post, s = tagMarker ++ (name ++ (ws1 ++ ':' :: (ws2 ++ (sel ++ post)))) ∧
    before.any isWordChar = false ∧
    name ≠ [] ∧ (∀ c ∈ name, isWordChar c = true) ∧
    (∀ c ∈ ws1, isSpaceChar c = true) ∧ (∀ c ∈ ws2, isSpaceChar c = true) ∧
    sel ≠ [] ∧ (∀ c ∈ sel, isWordChar c = true) ∧ (∀ c ∈ post.head?, isWordChar c = false) ∧
    len = tagMarker.length + name.length + ws1.length + 1 + ws2.length + sel.length

mutual
/-- Every `(key, value)` member of every object node of a tree, at any depth, in the
order of a depth-first walk that lists a member before the members inside its value;
object members in their enumeration order, list elements in index order. -/
def memberPairs : Json → List (String × Json)
  | .obj members => memberPairsMembers members
  | .arr items => memberPairsItems items
  | .null => []
  | .bool _ => []
  | .num _ => []
  | .str _ => []
/-- The walk over the members of an object node. -/
def memberPairsMembers : List (String × Json) → List (String × Json)
  | [] => []
  | (k, val) :: rest => (k, val) :: (memberPairs val ++ memberPairsMembers rest)
/-- The walk over the elements of a list node. -/
def memberPairsItems : List Json → List (String × Json)
  | [] => []
  | item :: rest => memberPairs item ++ memberPairsItems rest
end

/-- The value of the last pair of a walk whose key is a marker that the alias map
gives to `cleanKey`. -/
def lastMatch (aliasMap : List (String × String)) (cleanKey : String) :
    List (String × Json) → Option Json
  | [] => none
  | (k, val) :: rest =>
      match lastMatch aliasMap cleanKey rest with
      | some later => some later
      | none => if (cleanKey, k) ∈ aliasMap then some val else none

/-- One layer around a tree: an object with a single member, or a single-element list. -/
inductive Layer where
  | member (key : String)
  | single

/-- A tree wrapped in layers, the first layer outermost. -/
def wrap : List Layer → Json → Json
  | [], t => t
  | .member key :: rest, t => .obj [(key, wrap rest t)]
  | .single :: rest, t => .arr [wrap rest t]

/-- The key of a layer, if it has one. -/
def Layer.key? : Layer → Option String
  | .member key => some key
  | .single => none

/-- The pairs of a walk recorded one after the other: the extractor as a left fold. -/
def recordAll (aliasMap : List (String × String)) :
    List (String × Json) → List (String × Json) → List (String × Json)
  | [], result => result
  | (k, val) :: rest, result => recordAll aliasMap rest (recordMatches k val aliasMap result)

/-- The distinct elements of a list in the order in which they are first met, leaving
out the ones already seen. -/
def firstSeen : List String → List String → List String
  | [], _ => []
  | x :: rest, seen => if x ∈ seen then firstSeen rest seen else x :: firstSeen rest (x :: seen)

/-- The pair `(k, v)` is a member of some object node of the tree, at any depth,
reached through any nesting of objects and lists. -/
inductive HasMember : Json → String → Json → Prop where
  | here (members : List (String × Json)) (k : String) (v : Json) :
      (k, v) ∈ members → HasMember (.obj members) k v
  | under (members : List (String × Json)) (k2 : String) (t : Json) (k : String) (v : Json) :
      (k2, t) ∈ members → HasMember t k v → HasMember (.obj members) k v
  | within (items : List Json) (t : Json) (k : String) (v : Json) :
      t ∈ items → HasMember t k v → HasMember (.arr items) k v

/-! ## Sample inputs -/

/-- A streaming processor after `Start`, for a given template. -/
def startedWith (query : String) : GraphQLProcessor :=
  GraphQLProcessor.Start
    { GraphQLQuery := query, Url := "http://192.0.2.1:1337/graphql/", Token := "0123",
      MaxParallel := 10, parsedVars := [], aliasMap := [] }

/-- The template of the end-to-end example. -/
def itemQuery : String := "query($id:String){__root_element:item(id:$id){__tag_name:name}}"

/-- A measurement with the single tag `id=42`. -/
def itemMetric : Metric :=
  { name := "ping", tags := [("id", "42")], fields := [("value", .int 1)], time := 1700000000 }

/-- The response body `{"data":{"__root_element":{"__tag_name":"widget"}}}`. -/
def itemBody : List (String × Json) :=
  [("data", .obj [("__root_element", .obj [("__tag_name", .str "widget")])])]

/-- The response body `{"data":{"other":1}}`, which has no root element. -/
def shapelessBody : List (String × Json) := [("data", .obj [("other", .num 1)])]

/-- A template that references `$a` and `$b`. -/
def pairQuery : String :=
  "query($a:String,$b:String){__root_element:item(a:$a,b:$b){__tag_name:name}}"

/-- A measurement that carries both `a` and `b` as tags. -/
def pairMetric : Metric :=
  { name := "ping", tags := [("a", "1"), ("b", "2")], fields := [], time := 0 }

/-- A template that references `$url` and `$missing`. -/
def urlQuery : String :=
  "query($url:String,$missing:String){__root_element:device_list(name:$url,x:$missing){__tag_status:status}}"

/-- A measurement with the single tag `url=device1`. -/
def urlMetric : Metric :=
  { name := "ping", tags := [("url", "device1")], fields := [], time := 0 }

/-- A number formatting used in the examples; no example formats a number. -/
def noFloats : Nat → String := fun _ => ""

/-- A template with the markers `__tag_status: status` and `__tag_site: site_name`. -/
def deviceQuery : String :=
  "query ($url: String) { __root_element: device_list(filters: {name: {exact: $url}}) { __tag_status: status site { __tag_site: site_name } } }"

/-- The same template with other field selectors after the colons. -/
def deviceQueryOtherSelectors : String :=
  "query ($url: String) { __root_element: device_list(filters: {name: {exact: $url}}) { __tag_status: state site { __tag_site: slug } } }"

/-- The alias map `{"status": "__tag_status", "site": "__tag_site"}`. -/
def deviceAliases : List (String × String) := [("status", "__tag_status"), ("site", "__tag_site")]

/-- The response tree `{"__tag_status": "up", "site": {"__tag_site": "NYC"}}`. -/
def deviceTree : Json :=
  .obj [("__tag_status", .str "up"), ("site", .obj [("__tag_site", .str "NYC")])]

/-- The members of `{"__tag_status": "outer", "site": {"__tag_status": "inner"}}` in the
order of the response text. -/
def shadowedInserted : List (String × Json) :=
  [("__tag_status", .str "outer"), ("site", .obj [("__tag_status", .str "inner")])]

/-- The same members in another order of enumeration. -/
def shadowedEnumerated : List (String × Json) :=
  [("site", .obj [("__tag_status", .str "inner")]), ("__tag_status", .str "outer")]

/-- The response body `{"data":{"__root_element":[{"__tag_name":"widget"},{"__tag_name":"gadget","__tag_status":"up"}]}}`. -/
def listBody : List (String × Json) :=
  [("data", .obj [("__root_element", .arr
    [.obj [("__tag_name", .str "widget")],
     .obj [("__tag_name", .str "gadget"), ("__tag_status", .str "up")]])])]

/-- A template that asks for a name and a status. -/
def listQuery : String :=
  "query($id:String){__root_element:items(id:$id){__tag_name:name __tag_status:status}}"

/-- The response body `{"data":{"__root_element":[]}}`. -/
def emptyRootBody : List (String × Json) := [("data", .obj [("__root_element", .arr [])])]

/-- The response body `{"data":{"device_list":[]}}`. -/
def emptyDeviceBody : List (String × Json) := [("data", .obj [("device_list", .arr [])])]

/-- The response body
`{"errors":[{"message":"boom"}],"data":{"__root_element":{"__tag_name":"widget"}}}`. -/
def errorsAndDataBody : List (String × Json) :=
  [("errors", .arr [.obj [("message", .str "boom")]]),
   ("data", .obj [("__root_element", .obj [("__tag_name", .str "widget")])])]

/-- What decoding `errorsAndDataBody` as a `GraphQLErrorResponse` yields: its one
message. -/
def boomErrors : Option (List String) := some ["boom"]

/-- A measurement that already carries the tag `name`. -/
def namedMetric : Metric :=
  { name := "ping", tags := [("id", "42"), ("name", "old")], fields := [("value", .int 1)],
    time := 1700000000 }

/-- A batch template whose alias map has the clean key `b`, which is also a variable. -/
def feedbackQuery : String :=
  "query($a:String,$b:String){device_list(a:$a,b:$b){__tag_b:name}}"

/-- The batch processor for `feedbackQuery`. -/
def feedbackProcessor : NetboxProcessor :=
  { GraphQLQuery := feedbackQuery, Url := "http://192.0.2.1:1337/graphql/", Token := "0123" }

/-- A measurement that carries `a` and not `b`. -/
def onlyA : Metric := { name := "ping", tags := [("a", "1")], fields := [], time := 0 }

/-- A service that answers every call with `{"data":{"device_list":[{"__tag_b":"x"}]}}`. -/
def answeringService : Nat → HttpRequest → Outcome :=
  fun _ _ => .response 200 (some (.obj [("data", .obj [("device_list",
    .arr [.obj [("__tag_b", .str "x")]])])]))

/-- A service that cannot be reached. -/
def deadService : Nat → HttpRequest → Outcome := fun _ _ => .transportError

/-- The response tree `{"__tag_site": {"name": "NYC"}}`: the marked field is an object. -/
def nestedSiteTree : Json := .obj [("__tag_site", .obj [("name", .str "NYC")])]

/-! ## The extractor as a list of assignments -/

/-- The assignments `result[cleanKey] = val` that one member `(k, val)` triggers, in the
order of the alias map. -/
def assignmentsOf (aliasMap : List (String × String)) (k : String) (val : Json) :
    List (String × Json) :=
  aliasMap.filterMap (fun p => if k = p.2 then some (p.1, val) else none)

/-- The assignments that a walk triggers, in order. -/
def assignments (aliasMap : List (String × String)) : List (String × Json) → List (String × Json)
  | [] => []
  | (k, val) :: rest => assignmentsOf aliasMap k val ++ assignments aliasMap rest

/-- A list of assignments carried out on a result map, in order. -/
def assignAll : List (String × Json) → List (String × Json) → List (String × Json)
  | [], result => result
  | (key, val) :: rest, result => assignAll rest (mapSet key val result)

/-- The value of the last assignment to a key, if there is one. -/
def lastAssigned (key : String) : List (String × Json) → Option Json
  | [] => none
  | (k, val) :: rest =>
      match lastAssigned key rest with
      | some later => some later
      | none => if k = key then some val else none

/-! ## Status codes and diagnostics -/

/-- The same outcome under another status code. -/
def Outcome.withStatus (status : Nat) : Outcome → Outcome
  | .transportError => .transportError
  | .readError _ => .readError status
  | .response _ body => .response status body

/-- What `processMetric` logs on the path it takes: the request cannot be created, the
call fails, the body cannot be read, the body is an error envelope (graphql.go 204-207),
the body cannot be parsed, `data` is missing, `__root_element` is missing, the root list
is empty, the root has an unexpected type, or the measurement is enriched. -/
inductive Diagnostic where
  | requestError
  | transportError
  | readError
  | graphqlErrors (messages : List String)
  | unparsable
  | missingData
  | missingRoot
  | emptyResult
  | unexpectedType
  | enriched
deriving DecidableEq

/-- `json.Unmarshal(body, &gqlErr)` with `gqlErr` a `GraphQLErrorResponse`. It is a
decoding of the body bytes of its own, which skips the members that the struct does not
name; so it can succeed on a body whose decoding into the map has failed, for one on a
number outside the range of `float64` in a skipped member. `structDecode` is what it
yields on the body at hand when that body is an object or is not decoded at all: the
messages, `none` for an error. `null` decodes to no messages; a list, a string, a number
or a bool at top level does not decode into a struct. -/
def unmarshalErrors (structDecode : Option (List String)) : Option Json → Option (List String)
  | none => structDecode
  | some (.obj _) => structDecode
  | some .null => some []
  | some (.arr _) => none
  | some (.str _) => none
  | some (.num _) => none
  | some (.bool _) => none

/-- The log line of `processMetric` (graphql.go 170-252), path by path. `structDecode` is
what decoding the body of the response as a `GraphQLErrorResponse` yields; the code asks
for it only after the decoding into the map has failed (graphql.go 200-204). -/
def GraphQLProcessor.diagnostic (g : GraphQLProcessor) (structDecode : Option (List String))
    (urlParses : String → Bool) (roundTrip : HttpRequest → Outcome) (metric : Metric) :
    Diagnostic :=
  if urlParses g.Url = false then .requestError
  else
    match roundTrip (g.request metric) with
    | .transportError => .transportError
    | .readError _ => .readError
    | .response _ body =>
        match unmarshalMap body with
        | none =>
            match unmarshalErrors structDecode body with
            | some (message :: rest) => .graphqlErrors (message :: rest)
            | _ => .unparsable
        | some raw =>
            match mapGet "data" raw with
            | some (.obj data) =>
                match mapGet "__root_element" data with
                | none => .missingRoot
                | some (.arr []) => .emptyResult
                | some (.arr (_ :: _)) => .enriched
                | some (.obj _) => .enriched
                | some _ => .unexpectedType
            | _ => .missingData

/-! ## Initialisation -/

/-- `Init` (graphql.go 78-83): the processor after the call and the returned error,
which is nil on every path. -/
def GraphQLProcessor.Init (g : GraphQLProcessor) : GraphQLProcessor × Option String :=
  (if g.MaxParallel ≤ 0 then { g with MaxParallel := 10 } else g, none)

/-! ## Further notions of the specification -/

/-- Tags are kept from `a` to `b`: the two differ at most in their tags, every tag key
of `a` is a tag key of `b`, and a key that is no clean key of the alias map carries the
same value in both. -/
def keepsTags (aliasMap : List (String × String)) (a b : Metric) : Prop :=
  sameButTags a b ∧
  (∀ key value, a.GetTag key = some value → ∃ kept, b.GetTag key = some kept) ∧
  (∀ key, (∀ marker, (key, marker) ∉ aliasMap) → b.GetTag key = a.GetTag key)

/-- The requests of one variable: one for each measurement that carries the variable as
a tag, in the order of the measurements. -/
def requestsFor (nb : NetboxProcessor) (gqlVar : String) : List Metric → List HttpRequest
  | [] => []
  | metric :: rest =>
      match metric.GetTag gqlVar with
      | some value => nb.request gqlVar value :: requestsFor nb gqlVar rest
      | none => requestsFor nb gqlVar rest

/-- One request for every pair of a variable and a measurement that carries it, variable
by variable. -/
def expectedRequests (nb : NetboxProcessor) : List String → List Metric → List HttpRequest
  | [], _ => []
  | gqlVar :: rest, metrics => requestsFor nb gqlVar metrics ++ expectedRequests nb rest metrics

/-! # Properties -/

/-! ## Go maps -/

theorem mapGet_mapSet {β : Type} (key k : String) (val : β) (m : List (String × β)) :
    mapGet k (mapSet key val m) = if key = k then some val else mapGet k m := by
  induction m with
  | nil => simp [mapSet, mapGet]
  | cons p rest ih =>
      obtain ⟨a, b⟩ := p
      by_cases h : a = key
      · subst h
        by_cases h2 : a = k <;> simp [mapSet, mapGet, h2]
      · by_cases h2 : a = k
        · subst h2
          have : ¬ key = a := fun e => h e.symm
          simp [mapSet, mapGet, h, this]
        · simp [mapSet, mapGet, h, h2, ih]

theorem mapKeys_mapSet_nodup {β : Type} (key : String) (val : β) (m : List (String × β))
    (h : (mapKeys m).Nodup) : (mapKeys (mapSet key val m)).Nodup := by
  have hmem : ∀ (m : List (String × β)) (x : String), x ∈ mapKeys (mapSet key val m) →
      x = key ∨ x ∈ mapKeys m := by
    intro m
    induction m with
    | nil => intro x hx; simp [mapSet, mapKeys] at hx; exact Or.inl hx
    | cons p rest ih =>
        obtain ⟨a, b⟩ := p
        intro x hx
        by_cases ha : a = key
        · simp [mapSet, mapKeys, ha] at hx ⊢
          exact hx
        · simp only [mapSet, ha, if_false, mapKeys, List.map_cons, List.mem_cons] at hx
          rcases hx with hx | hx
          · exact Or.inr (by simp [mapKeys, hx])
          · rcases ih x hx with h1 | h1
            · exact Or.inl h1
            · exact Or.inr (by simp only [mapKeys, List.map_cons, List.mem_cons]; exact Or.inr h1)
  induction m with
  | nil => simp [mapSet, mapKeys]
  | cons p rest ih =>
      obtain ⟨a, b⟩ := p
      have h' : a ∉ mapKeys rest ∧ (mapKeys rest).Nodup := by
        simpa [mapKeys] using h
      by_cases ha : a = key
      · simpa [mapSet, mapKeys, ha] using h
      · simp only [mapSet, ha, if_false, mapKeys, List.map_cons, List.nodup_cons]
        refine ⟨?_, ih h'.2⟩
        intro hx
        rcases hmem rest a hx with h1 | h1
        · exact ha h1
        · exact h'.1 h1

theorem mapGet_eq_none_iff {β : Type} (k : String) (m : List (String × β)) :
    mapGet k m = none ↔ k ∉ mapKeys m := by
  induction m with
  | nil => simp [mapGet, mapKeys]
  | cons p rest ih =>
      obtain ⟨a, b⟩ := p
      by_cases h : a = k
      · simp [mapGet, mapKeys, h]
      · have h2 : ¬ k = a := fun e => h e.symm
        simp only [mapGet, h, if_false, ih, mapKeys, List.map_cons, List.mem_cons, h2, false_or]

theorem mapGet_mem {β : Type} (k : String) (v : β) (m : List (String × β))
    (h : mapGet k m = some v) : (k, v) ∈ m := by
  induction m with
  | nil => simp [mapGet] at h
  | cons p rest ih =>
      obtain ⟨a, b⟩ := p
      by_cases ha : a = k
      · simp [mapGet, ha] at h
        simp [ha, h]
      · simp only [mapGet, ha, if_false] at h
        exact List.mem_cons_of_mem _ (ih h)

/-! ## Field extractor -/

theorem recordMatches_get (k : String) (val : Json) (aliasMap : List (String × String))
    (cleanKey : String) (result : List (String × Json)) :
    mapGet cleanKey (recordMatches k val aliasMap result) =
      if (cleanKey, k) ∈ aliasMap then some val else mapGet cleanKey result := by
  induction aliasMap generalizing result with
  | nil => simp [recordMatches]
  | cons p rest ih =>
      obtain ⟨c, mk⟩ := p
      simp only [recordMatches, ih, List.mem_cons, Prod.mk.injEq]
      by_cases hrest : (cleanKey, k) ∈ rest
      · simp [hrest]
      · by_cases hk : k = mk
        · subst hk
          by_cases hc : c = cleanKey
          · subst hc
            simp [hrest, mapGet_mapSet]
          · have hc2 : ¬ cleanKey = c := fun e => hc e.symm
            simp [hrest, mapGet_mapSet, hc, hc2]
        · simp [hrest, hk]

theorem recordMatches_keys_nodup (k : String) (val : Json) (aliasMap : List (String × String))
    (result : List (String × Json)) (h : (mapKeys result).Nodup) :
    (mapKeys (recordMatches k val aliasMap result)).Nodup := by
  induction aliasMap generalizing result with
  | nil => simpa [recordMatches] using h
  | cons p rest ih =>
      obtain ⟨c, mk⟩ := p
      simp only [recordMatches]
      apply ih
      by_cases hk : k = mk
      · simpa [hk] using mapKeys_mapSet_nodup c val result h
      · simpa [hk] using h

theorem recordMatches_of_not_marker (k : String) (val : Json) (aliasMap : List (String × String))
    (result : List (String × Json)) (h : ∀ cleanKey, (cleanKey, k) ∉ aliasMap) :
    recordMatches k val aliasMap result = result := by
  induction aliasMap generalizing result with
  | nil => simp [recordMatches]
  | cons p rest ih =>
      obtain ⟨c, mk⟩ := p
      have hk : ¬ k = mk := by
        intro e
        exact h c (by simp [e])
      simp only [recordMatches, hk, if_false]
      exact ih result (fun ck hmem => h ck (List.mem_cons_of_mem _ hmem))

theorem recordAll_append (aliasMap : List (String × String)) (ps qs result : List (String × Json)) :
    recordAll aliasMap (ps ++ qs) result = recordAll aliasMap qs (recordAll aliasMap ps result) := by
  induction ps generalizing result with
  | nil => simp [recordAll]
  | cons p rest ih =>
      obtain ⟨k, val⟩ := p
      simp [recordAll, ih]

mutual
theorem extractAliasedFields_eq_recordAll : ∀ (t : Json) (aliasMap : List (String × String))
    (result : List (String × Json)),
    extractAliasedFields t aliasMap result = recordAll aliasMap (memberPairs t) result
  | .obj members, aliasMap, result => by
      simp only [extractAliasedFields, memberPairs]
      exact extractMembers_eq_recordAll members aliasMap result
  | .arr items, aliasMap, result => by
      simp only [extractAliasedFields, memberPairs]
      exact extractItems_eq_recordAll items aliasMap result
  | .null, _, _ => by simp [extractAliasedFields, memberPairs, recordAll]
  | .bool _, _, _ => by simp [extractAliasedFields, memberPairs, recordAll]
  | .num _, _, _ => by simp [extractAliasedFields, memberPairs, recordAll]
  | .str _, _, _ => by simp [extractAliasedFields, memberPairs, recordAll]
theorem extractMembers_eq_recordAll : ∀ (members : List (String × Json))
    (aliasMap : List (String × String)) (result : List (String × Json)),
    extractMembers members aliasMap result = recordAll aliasMap (memberPairsMembers members) result
  | [], _, _ => by simp [extractMembers, memberPairsMembers, recordAll]
  | (k, val) :: rest, aliasMap, result => by
      simp only [extractMembers, memberPairsMembers, recordAll, recordAll_append]
      rw [extractAliasedFields_eq_recordAll val aliasMap, extractMembers_eq_recordAll rest aliasMap]
theorem extractItems_eq_recordAll : ∀ (items : List Json)
    (aliasMap : List (String × String)) (result : List (String × Json)),
    extractItems items aliasMap result = recordAll aliasMap (memberPairsItems items) result
  | [], _, _ => by simp [extractItems, memberPairsItems, recordAll]
  | item :: rest, aliasMap, result => by
      simp only [extractItems, memberPairsItems, recordAll_append]
      rw [extractAliasedFields_eq_recordAll item aliasMap, extractItems_eq_recordAll rest aliasMap]
end

theorem recordAll_get (aliasMap : List (String × String)) (cleanKey : String)
    (pairs result : List (String × Json)) :
    mapGet cleanKey (recordAll aliasMap pairs result) =
      match lastMatch aliasMap cleanKey pairs with
      | some val => some val
      | none => mapGet cleanKey result := by
  induction pairs generalizing result with
  | nil => simp [recordAll, lastMatch]
  | cons p rest ih =>
      obtain ⟨k, val⟩ := p
      simp only [recordAll, lastMatch, ih, recordMatches_get]
      cases hl : lastMatch aliasMap cleanKey rest with
      | some later => simp
      | none =>
          by_cases hk : (cleanKey, k) ∈ aliasMap <;> simp [hk]

theorem recordAll_keys_nodup (aliasMap : List (String × String))
    (pairs result : List (String × Json)) (h : (mapKeys result).Nodup) :
    (mapKeys (recordAll aliasMap pairs result)).Nodup := by
  induction pairs generalizing result with
  | nil => simpa [recordAll] using h
  | cons p rest ih =>
      obtain ⟨k, val⟩ := p
      simp only [recordAll]
      exact ih _ (recordMatches_keys_nodup k val aliasMap result h)

theorem extractAliasedFields_get (t : Json) (aliasMap : List (String × String))
    (cleanKey : String) (result : List (String × Json)) :
    mapGet cleanKey (extractAliasedFields t aliasMap result) =
      match lastMatch aliasMap cleanKey (memberPairs t) with
      | some val => some val
      | none => mapGet cleanKey result := by
  rw [extractAliasedFields_eq_recordAll, recordAll_get]

theorem extractAliasedFields_keys_nodup (t : Json) (aliasMap : List (String × String)) :
    (mapKeys (extractAliasedFields t aliasMap [])).Nodup := by
  rw [extractAliasedFields_eq_recordAll]
  exact recordAll_keys_nodup aliasMap _ [] (by simp [mapKeys])

theorem lastMatch_eq_some (aliasMap : List (String × String)) (cleanKey : String)
    (pairs : List (String × Json)) (val : Json)
    (h : lastMatch aliasMap cleanKey pairs = some val) :
    ∃ marker, (cleanKey, marker) ∈ aliasMap ∧ (marker, val) ∈ pairs := by
  induction pairs with
  | nil => simp [lastMatch] at h
  | cons p rest ih =>
      obtain ⟨k, v⟩ := p
      simp only [lastMatch] at h
      cases hl : lastMatch aliasMap cleanKey rest with
      | some later =>
          rw [hl] at h
          simp only [Option.some.injEq] at h
          subst h
          obtain ⟨marker, h1, h2⟩ := ih hl
          exact ⟨marker, h1, List.mem_cons_of_mem _ h2⟩
      | none =>
          rw [hl] at h
          by_cases hk : (cleanKey, k) ∈ aliasMap
          · simp only [hk, if_true, Option.some.injEq] at h
            subst h
            exact ⟨k, hk, List.mem_cons_self _ _⟩
          · simp [hk] at h

theorem lastMatch_eq_none (aliasMap : List (String × String)) (cleanKey : String)
    (pairs : List (String × Json)) :
    lastMatch aliasMap cleanKey pairs = none ↔
      ∀ marker val, (cleanKey, marker) ∈ aliasMap → (marker, val) ∉ pairs := by
  induction pairs with
  | nil => simp [lastMatch]
  | cons p rest ih =>
      obtain ⟨k, v⟩ := p
      simp only [lastMatch]
      cases hl : lastMatch aliasMap cleanKey rest with
      | some later =>
          simp only [false_iff, reduceCtorEq]
          intro hall
          obtain ⟨marker, h1, h2⟩ := lastMatch_eq_some aliasMap cleanKey rest later hl
          exact hall marker later h1 (List.mem_cons_of_mem _ h2)
      | none =>
          have hrest := ih.mp hl
          by_cases hk : (cleanKey, k) ∈ aliasMap
          · simp only [hk, if_true, false_iff, reduceCtorEq]
            intro hall
            exact hall k v hk (List.mem_cons_self _ _)
          · simp only [hk, if_false, true_iff]
            intro marker val hm hmem
            rcases List.mem_cons.mp hmem with heq | hmem
            · simp only [Prod.mk.injEq] at heq
              exact hk (heq.1 ▸ hm)
            · exact hrest marker val hm hmem

/-! ## Tags -/

theorem addTags_sameButTags (fmtFloat : Nat → String) (result : List (String × Json))
    (metric : Metric) : sameButTags metric (addTags fmtFloat result metric) := by
  induction result generalizing metric with
  | nil => exact ⟨metric.tags, rfl⟩
  | cons p rest ih =>
      obtain ⟨k, val⟩ := p
      obtain ⟨tags, h⟩ := ih (metric.AddTag k (sprintV fmtFloat val))
      exact ⟨tags, by rw [addTags, h]; rfl⟩

theorem addTags_get (fmtFloat : Nat → String) (result : List (String × Json))
    (metric : Metric) (key : String) (h : (mapKeys result).Nodup) :
    (addTags fmtFloat result metric).GetTag key =
      match mapGet key result with
      | some val => some (sprintV fmtFloat val)
      | none => metric.GetTag key := by
  induction result generalizing metric with
  | nil => simp [addTags, mapGet]
  | cons p rest ih =>
      obtain ⟨k, val⟩ := p
      have h' : k ∉ mapKeys rest ∧ (mapKeys rest).Nodup := by simpa [mapKeys] using h
      simp only [addTags, ih _ h'.2, mapGet]
      by_cases hk : k = key
      · subst hk
        have hnone : mapGet k rest = none := (mapGet_eq_none_iff k rest).mpr h'.1
        simp [hnone, Metric.GetTag, Metric.AddTag, mapGet_mapSet]
      · simp only [hk, if_false]
        cases mapGet key rest with
        | some v => rfl
        | none => simp [Metric.GetTag, Metric.AddTag, mapGet_mapSet, hk]

/-! ## The enrichment worker and the batch loop -/

theorem sameButTags_refl (m : Metric) : sameButTags m m := ⟨m.tags, rfl⟩

theorem sameButTags_trans {a b c : Metric} (h1 : sameButTags a b) (h2 : sameButTags b c) :
    sameButTags a c := by
  obtain ⟨t1, rfl⟩ := h1
  obtain ⟨t2, rfl⟩ := h2
  exact ⟨t2, rfl⟩

theorem processMetric_cases (g : GraphQLProcessor) (fmtFloat : Nat → String)
    (urlParses : String → Bool) (roundTrip : HttpRequest → Outcome) (metric : Metric) :
    g.processMetric fmtFloat urlParses roundTrip metric = [metric] ∨
      ∃ node, g.processMetric fmtFloat urlParses roundTrip metric =
        [addTags fmtFloat (extractAliasedFields node g.aliasMap []) metric] := by
  unfold GraphQLProcessor.processMetric
  split
  · exact Or.inl rfl
  · split
    · exact Or.inl rfl
    · exact Or.inl rfl
    · split
      · exact Or.inl rfl
      · split
        · split
          · exact Or.inl rfl
          · exact Or.inl rfl
          · exact Or.inr ⟨_, rfl⟩
          · exact Or.inr ⟨_, rfl⟩
          · exact Or.inl rfl
        · exact Or.inl rfl

theorem enrich_cases (nb : NetboxProcessor) (fmtFloat : Nat → String)
    (urlParses : String → Bool) (service : Nat → HttpRequest → Outcome)
    (aliasMap : List (String × String)) (gqlVar : String) (metric : Metric)
    (sent : List HttpRequest) :
    (nb.enrich fmtFloat urlParses service aliasMap gqlVar metric sent).1 = metric ∨
      ∃ node, (nb.enrich fmtFloat urlParses service aliasMap gqlVar metric sent).1 =
        addTags fmtFloat (extractAliasedFields node aliasMap []) metric := by
  unfold NetboxProcessor.enrich
  split
  · exact Or.inl rfl
  · split
    · exact Or.inl rfl
    · split
      · exact Or.inl rfl
      · exact Or.inl rfl
      · split
        · exact Or.inl rfl
        · split
          · split
            · exact Or.inr ⟨_, rfl⟩
            · exact Or.inl rfl
          · exact Or.inl rfl

theorem enrich_sameButTags (nb : NetboxProcessor) (fmtFloat : Nat → String)
    (urlParses : String → Bool) (service : Nat → HttpRequest → Outcome)
    (aliasMap : List (String × String)) (gqlVar : String) (metric : Metric)
    (sent : List HttpRequest) :
    sameButTags metric (nb.enrich fmtFloat urlParses service aliasMap gqlVar metric sent).1 := by
  rcases enrich_cases nb fmtFloat urlParses service aliasMap gqlVar metric sent with h | ⟨node, h⟩
  · rw [h]; exact sameButTags_refl metric
  · rw [h]; exact addTags_sameButTags _ _ _

theorem applyVar_sameButTags (nb : NetboxProcessor) (fmtFloat : Nat → String)
    (urlParses : String → Bool) (service : Nat → HttpRequest → Outcome)
    (aliasMap : List (String × String)) (gqlVar : String) (metrics : List Metric)
    (sent : List HttpRequest) :
    List.Forall₂ sameButTags metrics
      (nb.applyVar fmtFloat urlParses service aliasMap gqlVar metrics sent).1 := by
  induction metrics generalizing sent with
  | nil => simp [NetboxProcessor.applyVar]
  | cons m rest ih =>
      simp only [NetboxProcessor.applyVar]
      exact List.Forall₂.cons (enrich_sameButTags _ _ _ _ _ _ _ _) (ih _)

theorem forall₂_sameButTags_trans {as bs cs : List Metric}
    (h1 : List.Forall₂ sameButTags as bs) (h2 : List.Forall₂ sameButTags bs cs) :
    List.Forall₂ sameButTags as cs := by
  induction h1 generalizing cs with
  | nil => cases h2; exact List.Forall₂.nil
  | cons hab _ ih =>
      cases h2 with
      | cons hbc hrest => exact List.Forall₂.cons (sameButTags_trans hab hbc) (ih hrest)

theorem forall₂_sameButTags_refl (ms : List Metric) : List.Forall₂ sameButTags ms ms := by
  induction ms with
  | nil => exact List.Forall₂.nil
  | cons m rest ih => exact List.Forall₂.cons (sameButTags_refl m) ih

theorem applyVars_sameButTags (nb : NetboxProcessor) (fmtFloat : Nat → String)
    (urlParses : String → Bool) (service : Nat → HttpRequest → Outcome)
    (aliasMap : List (String × String)) (gqlVars : List String) (metrics : List Metric)
    (sent : List HttpRequest) :
    List.Forall₂ sameButTags metrics
      (nb.applyVars fmtFloat urlParses service aliasMap gqlVars metrics sent).1 := by
  induction gqlVars generalizing metrics sent with
  | nil => simpa [NetboxProcessor.applyVars] using forall₂_sameButTags_refl metrics
  | cons v rest ih =>
      simp only [NetboxProcessor.applyVars]
      exact forall₂_sameButTags_trans (applyVar_sameButTags _ _ _ _ _ _ _ _) (ih _ _)

/-- C1: no measurement is dropped or duplicated. Whatever the configuration and the
outcome of the network call, `processMetric` returns a list of exactly one element,
the input measurement with at most its tags changed; and whatever the service answers,
`Apply` returns a sequence of the same length whose i-th element is the i-th input
measurement with at most its tags changed. -/
theorem measurement_never_dropped (g : GraphQLProcessor) (nb : NetboxProcessor)
    (fmtFloat : Nat → String) (urlParses : String → Bool) (roundTrip : HttpRequest → Outcome)
    (service : Nat → HttpRequest → Outcome) (metric : Metric) (metrics : List Metric) :
    (∃ out, g.processMetric fmtFloat urlParses roundTrip metric = [out] ∧ sameButTags metric out) ∧
    (nb.Apply fmtFloat urlParses service metrics).1.length = metrics.length ∧
    List.Forall₂ sameButTags metrics (nb.Apply fmtFloat urlParses service metrics).1 := by
  have hbatch : List.Forall₂ sameButTags metrics (nb.Apply fmtFloat urlParses service metrics).1 :=
    applyVars_sameButTags _ _ _ _ _ _ _ _
  refine ⟨?_, hbatch.length_eq.symm, hbatch⟩
  rcases processMetric_cases g fmtFloat urlParses roundTrip metric with h | ⟨node, h⟩
  · exact ⟨metric, h, sameButTags_refl metric⟩
  · exact ⟨_, h, addTags_sameButTags _ _ _⟩

/-- C2: every failure passes the measurement through unchanged. If the call fails, the
body cannot be read, the body does not decode as a JSON object, the object has no
object-valued `data` member, `data` has no `__root_element` member, or the root element
is neither a list nor an object, then `processMetric` returns exactly the input
measurement: same tags, same name, same fields. -/
theorem failure_passes_through (g : GraphQLProcessor) (fmtFloat : Nat → String)
    (urlParses : String → Bool) (roundTrip : HttpRequest → Outcome) (metric : Metric)
    (h : FailedOutcome (roundTrip (g.request metric))) :
    g.processMetric fmtFloat urlParses roundTrip metric = [metric] := by
  unfold GraphQLProcessor.processMetric
  by_cases hu : urlParses g.Url = false
  · simp [hu]
  · simp only [hu, if_false]
    generalize roundTrip (g.request metric) = outcome at h
    cases h with
    | transport => rfl
    | unreadable status => rfl
    | undecodable status body hbody =>
        cases body with
        | none => rfl
        | some t =>
            cases t with
            | obj members => exact absurd rfl (hbody members)
            | null => rfl
            | bool b => rfl
            | num n => rfl
            | str s => rfl
            | arr items => rfl
    | noData status members hdata =>
        simp only [unmarshalMap]
        cases hd : mapGet "data" members with
        | none => rfl
        | some t =>
            cases t with
            | obj data => exact absurd hd (hdata data)
            | null => rfl
            | bool b => rfl
            | num n => rfl
            | str s => rfl
            | arr items => rfl
    | noRoot status members data hdata hroot =>
        simp [unmarshalMap, hdata, hroot]
    | scalarRoot status members data root hdata hroot hscalar =>
        simp only [unmarshalMap, hdata, hroot]
        cases root with
        | obj v => simp [Json.isScalar] at hscalar
        | arr items => simp [Json.isScalar] at hscalar
        | null => rfl
        | bool b => rfl
        | num n => rfl
        | str s => rfl

/-- Witness of C2: a response `{"data":{"other":1}}` lacks the root element, and the
measurement comes back as it went in. -/
theorem failure_passes_through_witness :
    FailedOutcome (Outcome.response 200 (some (.obj shapelessBody))) ∧
    (startedWith itemQuery).processMetric noFloats (fun _ => true)
      (fun _ => Outcome.response 200 (some (.obj shapelessBody))) itemMetric = [itemMetric] :=
  ⟨FailedOutcome.noRoot 200 shapelessBody [("other", .num 1)] rfl rfl,
   failure_passes_through (startedWith itemQuery) noFloats (fun _ => true)
      (fun _ => Outcome.response 200 (some (.obj shapelessBody))) itemMetric
      (FailedOutcome.noRoot 200 shapelessBody [("other", .num 1)] rfl rfl)⟩

/-- C3: on a successful response `{"data": {"__root_element": r}}`, with `node` the
root node (r itself when it is an object, its first element when it is a non-empty
list), the output is one measurement with the name, fields and time of the input whose
tags are the input tags overridden by the extraction result over `node`: a key of the
result carries the stringified value of the result, every other key carries what the
input carried, and no other tag exists. -/
theorem success_overrides_tags (g : GraphQLProcessor) (fmtFloat : Nat → String)
    (urlParses : String → Bool) (roundTrip : HttpRequest → Outcome) (metric : Metric)
    (status : Nat) (body data : List (String × Json)) (root node : Json)
    (hurl : urlParses g.Url = true)
    (hresp : roundTrip (g.request metric) = Outcome.response status (some (.obj body)))
    (hdata : mapGet "data" body = some (.obj data))
    (hroot : mapGet "__root_element" data = some root)
    (hnode : rootNode root = some node) :
    ∃ out, g.processMetric fmtFloat urlParses roundTrip metric = [out] ∧
      out.name = metric.name ∧ out.fields = metric.fields ∧ out.time = metric.time ∧
      ∀ key, out.GetTag key =
        match mapGet key (extractAliasedFields node g.aliasMap []) with
        | some val => some (sprintV fmtFloat val)
        | none => metric.GetTag key := by
  have hout : g.processMetric fmtFloat urlParses roundTrip metric =
      [addTags fmtFloat (extractAliasedFields node g.aliasMap []) metric] := by
    unfold GraphQLProcessor.processMetric
    simp only [hurl, hresp, unmarshalMap, hdata, hroot]
    cases root with
    | obj v =>
        simp only [rootNode, Option.some.injEq] at hnode
        subst hnode
        simp
    | arr items =>
        cases items with
        | nil => simp [rootNode] at hnode
        | cons x rest =>
            simp only [rootNode, Option.some.injEq] at hnode
            subst hnode
            simp
    | null => simp [rootNode] at hnode
    | bool b => simp [rootNode] at hnode
    | num n => simp [rootNode] at hnode
    | str s => simp [rootNode] at hnode
  obtain ⟨tags, htags⟩ := addTags_sameButTags fmtFloat (extractAliasedFields node g.aliasMap []) metric
  refine ⟨_, hout, ?_, ?_, ?_, ?_⟩
  · rw [htags]
  · rw [htags]
  · rw [htags]
  · intro key
    exact addTags_get fmtFloat _ metric key (extractAliasedFields_keys_nodup node g.aliasMap)

/-- Witness of C3: the end-to-end example. Template
`query($id:String){__root_element:item(id:$id){__tag_name:name}}`, measurement tag
`id=42`, response `{"data":{"__root_element":{"__tag_name":"widget"}}}`: the output
measurement has the tags `id=42` and `name=widget`. -/
theorem success_overrides_tags_witness :
    (startedWith itemQuery).processMetric noFloats (fun _ => true)
        (fun _ => Outcome.response 200 (some (.obj itemBody))) itemMetric =
      [{ itemMetric with tags := [("id", "42"), ("name", "widget")] }] ∧
    ∃ out, (startedWith itemQuery).processMetric noFloats (fun _ => true)
        (fun _ => Outcome.response 200 (some (.obj itemBody))) itemMetric = [out] ∧
      out.name = itemMetric.name ∧ out.fields = itemMetric.fields ∧ out.time = itemMetric.time ∧
      ∀ key, out.GetTag key =
        match mapGet key (extractAliasedFields (.obj [("__tag_name", .str "widget")])
          (startedWith itemQuery).aliasMap []) with
        | some val => some (sprintV noFloats val)
        | none => itemMetric.GetTag key :=
  ⟨by decide,
   success_overrides_tags (startedWith itemQuery) noFloats (fun _ => true)
      (fun _ => Outcome.response 200 (some (.obj itemBody))) itemMetric 200 itemBody
      [("__root_element", .obj [("__tag_name", .str "widget")])]
      (.obj [("__tag_name", .str "widget")]) (.obj [("__tag_name", .str "widget")])
      rfl rfl rfl rfl rfl⟩

/-! ## Request variables -/

theorem bindVariables_sound (metric : Metric) (gqlVars : List String)
    (vars : List (String × String))
    (h : ∀ k v, mapGet k vars = some v → metric.GetTag k = some v) :
    ∀ k v, mapGet k (bindVariables metric gqlVars vars) = some v → metric.GetTag k = some v := by
  induction gqlVars generalizing vars with
  | nil => simpa [bindVariables] using h
  | cons gqlVar rest ih =>
      simp only [bindVariables]
      cases hg : metric.GetTag gqlVar with
      | none => exact ih vars h
      | some value =>
          apply ih
          intro k v hk
          by_cases hkey : gqlVar = k
          · subst hkey
            simp only [mapGet, if_true, Option.some.injEq] at hk
            rw [hg, hk]
          · simp [mapGet, hkey] at hk

/-- C4, evaluated on the code: for the template `pairQuery`, which references `$a` and
`$b`, and a measurement that carries both `a=1` and `b=2`, the variable set is
`[a, b]` and yet the request built by `processMetric` binds `b` alone; `a` is not a
key of its variables. Each supplied variable replaces the mapping built so far. -/
theorem request_binds_only_last_variable :
    (startedWith pairQuery).parsedVars = ["a", "b"] ∧
    pairMetric.GetTag "a" = some "1" ∧ pairMetric.GetTag "b" = some "2" ∧
    ((startedWith pairQuery).requestBody pairMetric).Variables = [("b", "2")] ∧
    mapGet "a" ((startedWith pairQuery).requestBody pairMetric).Variables = none := by
  decide

/-- C5: a name that the measurement does not carry as a tag is never a key of the
variables of an outgoing request, and every binding of a request has the tag value of
the measurement as its value. This holds for the request body built by `processMetric`
and for every request that one pass of the loop body of `Apply` sends for a
measurement. -/
theorem request_variables_are_tags (g : GraphQLProcessor) (nb : NetboxProcessor)
    (fmtFloat : Nat → String) (urlParses : String → Bool)
    (service : Nat → HttpRequest → Outcome) (aliasMap : List (String × String))
    (gqlVar : String) (metric : Metric) (sent : List HttpRequest) :
    (∀ k, metric.GetTag k = none → mapGet k (g.requestBody metric).Variables = none) ∧
    (∀ k v, mapGet k (g.requestBody metric).Variables = some v → metric.GetTag k = some v) ∧
    ∃ new, (nb.enrich fmtFloat urlParses service aliasMap gqlVar metric sent).2 = sent ++ new ∧
      ∀ req ∈ new,
        (∀ k, metric.GetTag k = none → mapGet k req.body.Variables = none) ∧
        (∀ k v, mapGet k req.body.Variables = some v → metric.GetTag k = some v) := by
  have hstream : ∀ k v, mapGet k (g.requestBody metric).Variables = some v →
      metric.GetTag k = some v :=
    bindVariables_sound metric g.parsedVars [] (by intro k v hk; simp [mapGet] at hk)
  refine ⟨?_, hstream, ?_⟩
  · intro k hnone
    cases hv : mapGet k (g.requestBody metric).Variables with
    | none => rfl
    | some v => rw [hstream k v hv] at hnone; cases hnone
  · have hreq : ∀ value, metric.GetTag gqlVar = some value →
        (∀ k, metric.GetTag k = none → mapGet k (nb.request gqlVar value).body.Variables = none) ∧
        (∀ k v, mapGet k (nb.request gqlVar value).body.Variables = some v →
          metric.GetTag k = some v) := by
      intro value hvalue
      constructor
      · intro k hnone
        have hne : ¬ gqlVar = k := by
          intro e
          rw [← e, hvalue] at hnone
          cases hnone
        simp [NetboxProcessor.request, mapGet, hne]
      · intro k v hk
        by_cases hkey : gqlVar = k
        · subst hkey
          simp only [NetboxProcessor.request, mapGet, if_true, Option.some.injEq] at hk
          rw [hvalue, hk]
        · simp [NetboxProcessor.request, mapGet, hkey] at hk
    unfold NetboxProcessor.enrich
    split
    · exact ⟨[], by simp, by simp⟩
    · rename_i value hvalue
      have hone : ∀ req ∈ [nb.request gqlVar value],
          (∀ k, metric.GetTag k = none → mapGet k req.body.Variables = none) ∧
          (∀ k v, mapGet k req.body.Variables = some v → metric.GetTag k = some v) := by
        intro req hmem
        rw [List.mem_singleton] at hmem
        subst hmem
        exact hreq value hvalue
      split
      · exact ⟨[], by simp, by simp⟩
      · split
        · exact ⟨_, rfl, hone⟩
        · exact ⟨_, rfl, hone⟩
        · split
          · exact ⟨_, rfl, hone⟩
          · split
            · split
              · exact ⟨_, rfl, hone⟩
              · exact ⟨_, rfl, hone⟩
            · exact ⟨_, rfl, hone⟩

/-- Witness of C5: for the measurement with the tag `url=device1` and the template
`urlQuery`, which references `$url` and `$missing`, the request variables are exactly
`{"url": "device1"}`, in the streaming worker and in the batch loop. -/
theorem request_variables_are_tags_witness :
    (startedWith urlQuery).parsedVars = ["url", "missing"] ∧
    ((startedWith urlQuery).requestBody urlMetric).Variables = [("url", "device1")] ∧
    ((NetboxProcessor.mk urlQuery "u" "t").Apply noFloats (fun _ => true)
        (fun _ _ => Outcome.transportError) [urlMetric]).2.map (fun req => req.body.Variables) =
      [[("url", "device1")]] := by
  decide

/-! ## Variables of a template -/

theorem run_takeWhile_dropWhile (p : Char → Bool) (run post : List Char)
    (hrun : ∀ c ∈ run, p c = true) (hpost : ∀ c ∈ post.head?, p c = false) :
    (run ++ post).takeWhile p = run ∧ (run ++ post).dropWhile p = post := by
  induction run with
  | nil =>
      cases post with
      | nil => simp
      | cons c t =>
          have hc : p c = false := hpost c (by simp)
          simp [List.takeWhile_cons, List.dropWhile_cons, hc]
  | cons c t ih =>
      have hc : p c = true := hrun c (List.mem_cons_self _ _)
      have ht := ih (fun x hx => hrun x (List.mem_cons_of_mem _ hx))
      simp [List.takeWhile_cons, List.dropWhile_cons, hc, ht.1, ht.2]

theorem head_dropWhile_false (p : Char → Bool) (l : List Char) :
    ∀ c ∈ (l.dropWhile p).head?, p c = false := by
  intro c hc
  have h := List.head?_dropWhile_not p l
  rw [Option.mem_def] at hc
  rw [hc] at h
  simpa using h

theorem varMatches_skip (k : Nat) (s : List Char) : varMatches k s = varMatches 0 (s.drop k) := by
  induction s generalizing k with
  | nil => cases k <;> simp [varMatches]
  | cons c rest ih =>
      cases k with
      | zero => rfl
      | succ k => simp only [varMatches, List.drop_succ_cons]; exact ih k

theorem varMatches_run (run s : List Char) (h : ∀ c ∈ run, isWordChar c = true) :
    varMatches 0 (run ++ s) = varMatches 0 s := by
  induction run with
  | nil => rfl
  | cons c t ih =>
      have hc : isWordChar c = true := h c (List.mem_cons_self _ _)
      have hne : ¬ c = '$' := by
        intro e
        rw [e] at hc
        exact absurd hc (by decide)
      simp only [List.cons_append, varMatches, hne, false_and, if_false]
      exact ih (fun x hx => h x (List.mem_cons_of_mem _ hx))

theorem varMatches_cons (c : Char) (rest : List Char) :
    varMatches 0 (c :: rest) =
      if c = '$' ∧ rest.takeWhile isWordChar ≠ [] then
        rest.takeWhile isWordChar :: varMatches 0 rest
      else varMatches 0 rest := by
  simp only [varMatches]
  split
  · have hdrop : rest.drop (rest.takeWhile isWordChar).length = rest.dropWhile isWordChar := by
      have h := List.drop_left (rest.takeWhile isWordChar) (rest.dropWhile isWordChar)
      rw [List.takeWhile_append_dropWhile] at h
      exact h
    have hrun : varMatches 0 rest = varMatches 0 (rest.dropWhile isWordChar) := by
      have h := varMatches_run (rest.takeWhile isWordChar) (rest.dropWhile isWordChar)
        (fun x hx => List.mem_takeWhile_imp hx)
      rw [List.takeWhile_append_dropWhile] at h
      exact h
    rw [varMatches_skip, hdrop, hrun]
  · rfl

theorem varOccursAt_nil (i : Nat) (name : List Char) : ¬ VarOccursAt [] i name := by
  rintro ⟨post, h, _⟩
  simp at h

theorem varOccursAt_succ (c : Char) (rest : List Char) (i : Nat) (name : List Char) :
    VarOccursAt (c :: rest) (i + 1) name ↔ VarOccursAt rest i name := by
  simp [VarOccursAt]

theorem varOccursAt_zero (c : Char) (rest name : List Char) :
    VarOccursAt (c :: rest) 0 name ↔
      c = '$' ∧ rest.takeWhile isWordChar = name ∧ rest.takeWhile isWordChar ≠ [] := by
  constructor
  · rintro ⟨post, h, hne, hword, hpost⟩
    simp only [List.drop_zero, List.cons_append, List.cons.injEq] at h
    obtain ⟨hc, hrest⟩ := h
    have hrun := (run_takeWhile_dropWhile isWordChar name post hword hpost).1
    rw [hrest, hrun]
    exact ⟨hc, rfl, hne⟩
  · rintro ⟨hc, hname, hne⟩
    refine ⟨rest.dropWhile isWordChar, ?_, ?_, ?_, ?_⟩
    · subst hc
      subst hname
      simp
    · rw [← hname]; exact hne
    · intro x hx
      rw [← hname] at hx
      exact List.mem_takeWhile_imp hx
    · exact head_dropWhile_false isWordChar rest

theorem mem_varMatches (s name : List Char) :
    name ∈ varMatches 0 s ↔ ∃ i, VarOccursAt s i name := by
  induction s with
  | nil =>
      simp only [varMatches, List.not_mem_nil, false_iff]
      rintro ⟨i, h⟩
      exact varOccursAt_nil i name h
  | cons c rest ih =>
      rw [varMatches_cons]
      constructor
      · intro h
        split at h
        · rename_i hcond
          rcases List.mem_cons.mp h with h | h
          · exact ⟨0, (varOccursAt_zero c rest name).mpr ⟨hcond.1, h.symm, hcond.2⟩⟩
          · obtain ⟨i, hi⟩ := ih.mp h
            exact ⟨i + 1, (varOccursAt_succ c rest i name).mpr hi⟩
        · obtain ⟨i, hi⟩ := ih.mp h
          exact ⟨i + 1, (varOccursAt_succ c rest i name).mpr hi⟩
      · rintro ⟨i, hi⟩
        cases i with
        | zero =>
            obtain ⟨hc, hname, hne⟩ := (varOccursAt_zero c rest name).mp hi
            rw [if_pos ⟨hc, hne⟩, hname]
            exact List.mem_cons_self _ _
        | succ i =>
            have hrest : name ∈ varMatches 0 rest :=
              ih.mpr ⟨i, (varOccursAt_succ c rest i name).mp hi⟩
            split
            · exact List.mem_cons_of_mem _ hrest
            · exact hrest

theorem varMatches_split (s : List Char) (l1 l2 : List String) (a : String)
    (h : (varMatches 0 s).map String.mk = l1 ++ a :: l2) :
    ∃ i, VarOccursAt s i a.data ∧ ∀ j b, j < i → VarOccursAt s j b.data → b ∈ l1 := by
  induction s generalizing l1 with
  | nil => simp [varMatches] at h
  | cons c rest ih =>
      rw [varMatches_cons] at h
      have hskip : ∀ l1', (varMatches 0 rest).map String.mk = l1' ++ a :: l2 →
          (∀ b, VarOccursAt (c :: rest) 0 b.data → b ∈ l1) → (∀ b, b ∈ l1' → b ∈ l1) →
          ∃ i, VarOccursAt (c :: rest) i a.data ∧
            ∀ j b, j < i → VarOccursAt (c :: rest) j b.data → b ∈ l1 := by
        intro l1' hrest hzero hsub
        obtain ⟨i, hi, hbefore⟩ := ih l1' hrest
        refine ⟨i + 1, (varOccursAt_succ c rest i a.data).mpr hi, ?_⟩
        intro j b hj hb
        cases j with
        | zero => exact hzero b hb
        | succ j =>
            exact hsub b (hbefore j b (Nat.lt_of_succ_lt_succ hj)
              ((varOccursAt_succ c rest j b.data).mp hb))
      split at h
      · rename_i hcond
        cases l1 with
        | nil =>
            simp only [List.map_cons, List.nil_append, List.cons.injEq] at h
            refine ⟨0, ?_, fun j b hj => absurd hj (Nat.not_lt_zero j)⟩
            rw [← h.1]
            exact (varOccursAt_zero c rest _).mpr ⟨hcond.1, rfl, hcond.2⟩
        | cons x l1' =>
            simp only [List.map_cons, List.cons_append, List.cons.injEq] at h
            refine hskip l1' h.2 ?_ (fun b hb => List.mem_cons_of_mem _ hb)
            intro b hb
            obtain ⟨_, hname, _⟩ := (varOccursAt_zero c rest b.data).mp hb
            have hbx : b = x := by
              rw [← h.1, hname]
            rw [hbx]
            exact List.mem_cons_self _ _
      · rename_i hcond
        refine hskip l1 h ?_ (fun b hb => hb)
        intro b hb
        obtain ⟨hc, hname, hne⟩ := (varOccursAt_zero c rest b.data).mp hb
        exact absurd ⟨hc, hne⟩ hcond

theorem collectVars_eq (l values seen : List String) :
    (collectVars l (values, seen)).1 = values ++ firstSeen l seen := by
  induction l generalizing values seen with
  | nil => simp [collectVars, firstSeen]
  | cons x rest ih =>
      by_cases hx : x ∈ seen
      · simp only [collectVars, firstSeen, hx, if_true]
        exact ih values seen
      · simp only [collectVars, firstSeen, hx, if_false]
        rw [ih]
        simp

theorem mem_firstSeen (l seen : List String) (x : String) :
    x ∈ firstSeen l seen ↔ x ∈ l ∧ x ∉ seen := by
  induction l generalizing seen with
  | nil => simp [firstSeen]
  | cons y rest ih =>
      by_cases hy : y ∈ seen
      · simp only [firstSeen, hy, if_true, ih, List.mem_cons]
        constructor
        · rintro ⟨h1, h2⟩; exact ⟨Or.inr h1, h2⟩
        · rintro ⟨h1 | h1, h2⟩
          · subst h1; exact absurd hy h2
          · exact ⟨h1, h2⟩
      · simp only [firstSeen, hy, if_false, List.mem_cons, ih, not_or]
        constructor
        · rintro (h | ⟨h1, h2, h3⟩)
          · subst h; exact ⟨Or.inl rfl, hy⟩
          · exact ⟨Or.inr h1, h3⟩
        · rintro ⟨h1 | h1, h2⟩
          · exact Or.inl h1
          · by_cases hxy : x = y
            · exact Or.inl hxy
            · exact Or.inr ⟨h1, hxy, h2⟩

theorem firstSeen_pairwise (l seen : List String) :
    List.Pairwise (fun a b => a ≠ b ∧ ∃ l1 l2, l = l1 ++ a :: l2 ∧ b ∉ l1) (firstSeen l seen) := by
  induction l generalizing seen with
  | nil => simp [firstSeen]
  | cons y rest ih =>
      have lift : ∀ seen', (∀ b, b ∈ firstSeen rest seen' → b ≠ y) →
          List.Pairwise (fun a b => a ≠ b ∧ ∃ l1 l2, y :: rest = l1 ++ a :: l2 ∧ b ∉ l1)
            (firstSeen rest seen') := by
        intro seen' hne
        refine List.Pairwise.imp_of_mem ?_ (ih seen')
        intro a b _ hb hab
        obtain ⟨hneq, l1, l2, hl, hb1⟩ := hab
        refine ⟨hneq, y :: l1, l2, by rw [hl]; rfl, ?_⟩
        intro hmem
        rcases List.mem_cons.mp hmem with h | h
        · exact hne b hb h
        · exact hb1 h
      by_cases hy : y ∈ seen
      · simp only [firstSeen, hy, if_true]
        apply lift
        intro b hb e
        have := ((mem_firstSeen rest seen b).mp hb).2
        exact this (e ▸ hy)
      · simp only [firstSeen, hy, if_false, List.pairwise_cons]
        have hne : ∀ b, b ∈ firstSeen rest (y :: seen) → b ≠ y := by
          intro b hb e
          have := ((mem_firstSeen rest (y :: seen) b).mp hb).2
          exact this (e ▸ List.mem_cons_self _ _)
        refine ⟨?_, lift (y :: seen) hne⟩
        intro b hb
        exact ⟨fun e => hne b hb e.symm, [], rest, rfl, by simp⟩

/-- C6: `ParseGraphQLVars` returns the names captured by the occurrences of the variable
pattern, each distinct name once, ordered by first occurrence: the result has no
duplicates; it contains a name exactly when the template has an occurrence of the
pattern with that name; of two names of the result, the earlier one has an occurrence
in front of every occurrence of the later one; and the result is the empty list when
the template has no occurrence. -/
theorem ParseGraphQLVars_first_seen (query : String) :
    (ParseGraphQLVars query).Nodup ∧
    (∀ name, name ∈ ParseGraphQLVars query ↔ ∃ i, VarOccursAt query.data i name.data) ∧
    List.Pairwise (fun a b => ∃ i, VarOccursAt query.data i a.data ∧
      ∀ j, VarOccursAt query.data j b.data → i < j) (ParseGraphQLVars query) ∧
    ((∀ i name, ¬ VarOccursAt query.data i name) → ParseGraphQLVars query = []) := by
  have hres : ParseGraphQLVars query = firstSeen ((varMatches 0 query.data).map String.mk) [] := by
    simp [ParseGraphQLVars, collectVars_eq]
  have hpair := firstSeen_pairwise ((varMatches 0 query.data).map String.mk) []
  have hmem : ∀ name, name ∈ ParseGraphQLVars query ↔ ∃ i, VarOccursAt query.data i name.data := by
    intro name
    rw [hres, mem_firstSeen, ← mem_varMatches]
    simp only [List.not_mem_nil, not_false_eq_true, and_true, List.mem_map]
    constructor
    · rintro ⟨x, hx, rfl⟩; exact hx
    · intro h; exact ⟨name.data, h, rfl⟩
  refine ⟨?_, hmem, ?_, ?_⟩
  · rw [hres]
    exact hpair.imp (fun h => h.1)
  · rw [hres]
    refine hpair.imp ?_
    rintro a b ⟨hne, l1, l2, hl, hb⟩
    obtain ⟨i, hi, hbefore⟩ := varMatches_split query.data l1 l2 a hl
    refine ⟨i, hi, ?_⟩
    intro j hj
    rcases Nat.lt_trichotomy j i with h | h | h
    · exact absurd (hbefore j b h hj) hb
    · subst h
      exfalso
      apply hne
      obtain ⟨pa, ha, _, hwa, hpa⟩ := hi
      obtain ⟨pb, hb', _, hwb, hpb⟩ := hj
      have h1 := (run_takeWhile_dropWhile isWordChar a.data pa hwa hpa).1
      have h2 := (run_takeWhile_dropWhile isWordChar b.data pb hwb hpb).1
      rw [ha] at hb'
      simp only [List.cons_append, List.cons.injEq, true_and] at hb'
      rw [hb', h2] at h1
      cases a; cases b
      simp only at h1
      rw [h1]
    · exact h
  · intro hnone
    apply List.eq_nil_iff_forall_not_mem.mpr
    intro name hname
    obtain ⟨i, hi⟩ := (hmem name).mp hname
    exact hnone i name.data hi

/-- Witness of C6: a template that references `$a`, then `$b`, then `$a` again yields
`[a, b]`, and a template without a variable yields the empty list. -/
theorem ParseGraphQLVars_first_seen_witness :
    ParseGraphQLVars "query($a:String,$b:String){item(x:$a,y:$b,z:$a){name}}" = ["a", "b"] ∧
    ParseGraphQLVars "{ item { name cost$ } }" = [] := by
  decide

/-! ## Markers of a template -/

theorem space_not_word (c : Char) (h : isSpaceChar c = true) : isWordChar c = false := by
  simp only [isSpaceChar, Bool.or_eq_true, decide_eq_true_eq] at h
  rcases h with (((h | h) | h) | h) | h <;> subst h <;> decide

theorem word_not_space (c : Char) (h : isWordChar c = true) : isSpaceChar c = false := by
  cases hs : isSpaceChar c with
  | false => rfl
  | true => rw [space_not_word c hs] at h; cases h

theorem trimPrefixOf_marker (name : List Char) :
    TrimPrefixOf (tagMarker ++ name) tagMarker = name := by
  simp [TrimPrefixOf, tagMarker]

theorem matchTagAt_of_occurs (before : Option Char) (s name : List Char) (len : Nat)
    (h : MarkerOccurs before s name len) :
    matchTagAt before s = some (tagMarker ++ name, len) := by
  obtain ⟨ws1, ws2, sel, post, hs, hbefore, hne, hname, hws1, hws2, hsel, hselw, hpost, hlen⟩ := h
  have hcolonw : isWordChar ':' = false := by decide
  have hcolons : isSpaceChar ':' = false := by decide
  -- the name run stops at the whitespace or at the colon
  have h1 := run_takeWhile_dropWhile isWordChar name (ws1 ++ ':' :: (ws2 ++ (sel ++ post))) hname
    (by
      intro c hc
      cases ws1 with
      | nil =>
          simp only [List.nil_append, List.head?_cons, Option.mem_def, Option.some.injEq] at hc
          rw [← hc]; exact hcolonw
      | cons w t =>
          simp only [List.cons_append, List.head?_cons, Option.mem_def, Option.some.injEq] at hc
          rw [← hc]; exact space_not_word w (hws1 w (List.mem_cons_self _ _)))
  -- the whitespace stops at the colon
  have h2 := run_takeWhile_dropWhile isSpaceChar ws1 (':' :: (ws2 ++ (sel ++ post))) hws1
    (by
      intro c hc
      simp only [List.head?_cons, Option.mem_def, Option.some.injEq] at hc
      rw [← hc]; exact hcolons)
  -- the whitespace after the colon stops at the selector
  have h3 := run_takeWhile_dropWhile isSpaceChar ws2 (sel ++ post) hws2
    (by
      intro c hc
      cases sel with
      | nil => exact absurd rfl hsel
      | cons w t =>
          simp only [List.cons_append, List.head?_cons, Option.mem_def, Option.some.injEq] at hc
          rw [← hc]; exact word_not_space w (hselw w (List.mem_cons_self _ _)))
  have h4 := run_takeWhile_dropWhile isWordChar sel post hselw hpost
  have hhead : s.head? = some '_' := by rw [hs]; rfl
  have hpre : tagMarker.isPrefixOf s = true := by
    rw [hs]
    simp
  have hdrop : s.drop tagMarker.length = name ++ (ws1 ++ ':' :: (ws2 ++ (sel ++ post))) := by
    rw [hs]
    exact List.drop_left _ _
  have hboundary : wordBoundary before (some '_') = true := by
    simp only [wordBoundary, hbefore]
    decide
  have hlength : s.length - post.length = len := by
    rw [hs, hlen]
    simp only [List.length_append, List.length_cons]
    omega
  unfold matchTagAt
  simp only [hhead, hboundary, hpre, and_self, if_true, hdrop, h1.1, h1.2, hne, if_false, h2.2,
    h3.2, h4.1, h4.2, hsel, hlength]

theorem occurs_of_matchTagAt (before : Option Char) (s m : List Char) (len : Nat)
    (h : matchTagAt before s = some (m, len)) :
    ∃ name, m = tagMarker ++ name ∧ MarkerOccurs before s name len := by
  unfold matchTagAt at h
  split at h
  · rename_i hcond
    obtain ⟨hb, hp⟩ := hcond
    have hs : s = tagMarker ++ s.drop tagMarker.length := by
      have := List.prefix_iff_eq_append.mp (List.isPrefixOf_iff_prefix.mp hp)
      exact this.symm
    simp only at h
    split at h
    · cases h
    · rename_i hname
      split at h
      · rename_i afterColon hcolon
        split at h
        · cases h
        · rename_i hsel
          simp only [Option.some.injEq, Prod.mk.injEq] at h
          obtain ⟨hm, hlen⟩ := h
          refine ⟨(s.drop tagMarker.length).takeWhile isWordChar, hm.symm,
            ((s.drop tagMarker.length).dropWhile isWordChar).takeWhile isSpaceChar,
            afterColon.takeWhile isSpaceChar,
            (afterColon.dropWhile isSpaceChar).takeWhile isWordChar,
            (afterColon.dropWhile isSpaceChar).dropWhile isWordChar, ?_, ?_, hname, ?_, ?_, ?_,
            hsel, ?_, ?_, ?_⟩
          · have e1 := List.takeWhile_append_dropWhile isWordChar (s.drop tagMarker.length)
            have e2 := List.takeWhile_append_dropWhile isSpaceChar
              ((s.drop tagMarker.length).dropWhile isWordChar)
            have e3 := List.takeWhile_append_dropWhile isSpaceChar afterColon
            have e4 := List.takeWhile_append_dropWhile isWordChar
              (afterColon.dropWhile isSpaceChar)
            rw [e4, e3, ← hcolon, e2, e1]
            exact hs
          · have hhead : s.head? = some '_' := by rw [hs]; rfl
            rw [hhead] at hb
            simp only [wordBoundary] at hb
            cases hany : before.any isWordChar with
            | false => rfl
            | true => rw [hany] at hb; exact absurd hb (by decide)
          · intro c hc
            exact List.mem_takeWhile_imp hc
          · intro c hc
            exact List.mem_takeWhile_imp hc
          · intro c hc
            exact List.mem_takeWhile_imp hc
          · intro c hc
            exact List.mem_takeWhile_imp hc
          · exact head_dropWhile_false isWordChar _
          · rw [← hlen]
            have e1 := List.takeWhile_append_dropWhile isWordChar (s.drop tagMarker.length)
            have e2 := List.takeWhile_append_dropWhile isSpaceChar
              ((s.drop tagMarker.length).dropWhile isWordChar)
            have e3 := List.takeWhile_append_dropWhile isSpaceChar afterColon
            have e4 := List.takeWhile_append_dropWhile isWordChar
              (afterColon.dropWhile isSpaceChar)
            have l0 := congrArg List.length hs
            have l1 := congrArg List.length e1
            have l2 := congrArg List.length e2
            have l3 := congrArg List.length e3
            have l4 := congrArg List.length e4
            rw [hcolon] at l2
            simp only [List.length_append, List.length_cons] at l0 l1 l2 l3 l4
            omega
      · cases h
  · cases h

theorem tagMatches_occurs (s : List Char) :
    ∀ (k : Nat) (pre : List Char) (m : List Char), m ∈ tagMatches k pre.getLast? s →
      ∃ pre2 post name len, pre ++ s = pre2 ++ post ∧ m = tagMarker ++ name ∧
        MarkerOccurs pre2.getLast? post name len := by
  induction s with
  | nil =>
      intro k pre m hm
      cases k <;> simp [tagMatches] at hm
  | cons c rest ih =>
      intro k pre m hm
      have hlast : (pre ++ [c]).getLast? = some c := List.getLast?_concat pre
      have hnext : ∀ k2, m ∈ tagMatches k2 (some c) rest →
          ∃ pre2 post name len, pre ++ c :: rest = pre2 ++ post ∧ m = tagMarker ++ name ∧
            MarkerOccurs pre2.getLast? post name len := by
        intro k2 hk2
        rw [← hlast] at hk2
        obtain ⟨pre2, post, name, len, h1, h2, h3⟩ := ih k2 (pre ++ [c]) m hk2
        exact ⟨pre2, post, name, len, by simpa using h1, h2, h3⟩
      cases k with
      | succ k =>
          simp only [tagMatches] at hm
          exact hnext k hm
      | zero =>
          simp only [tagMatches] at hm
          cases hmatch : matchTagAt pre.getLast? (c :: rest) with
          | none =>
              rw [hmatch] at hm
              exact hnext 0 hm
          | some found =>
              obtain ⟨marker, len⟩ := found
              rw [hmatch] at hm
              rcases List.mem_cons.mp hm with h | h
              · subst h
                obtain ⟨name, h1, h2⟩ := occurs_of_matchTagAt _ _ _ _ hmatch
                exact ⟨pre, c :: rest, name, len, rfl, h1, h2⟩
              · exact hnext _ h

theorem collectTags_get (found : List (List Char)) (aliasMap : List (String × String))
    (k : String) (h : ∀ m ∈ found, ∃ name, m = tagMarker ++ name) :
    mapGet k (collectTags found aliasMap) =
      if tagMarker ++ k.data ∈ found then some (String.mk (tagMarker ++ k.data))
      else mapGet k aliasMap := by
  induction found generalizing aliasMap with
  | nil => simp [collectTags]
  | cons m rest ih =>
      obtain ⟨name, hname⟩ := h m (List.mem_cons_self _ _)
      have hrest := ih (mapSet (String.mk (TrimPrefixOf m tagMarker)) (String.mk m) aliasMap)
        (fun x hx => h x (List.mem_cons_of_mem _ hx))
      simp only [collectTags, hrest, List.mem_cons]
      by_cases hin : tagMarker ++ k.data ∈ rest
      · simp [hin]
      · simp only [hin, if_false, or_false, mapGet_mapSet]
        subst hname
        rw [trimPrefixOf_marker]
        by_cases hk : name = k.data
        · subst hk
          simp
        · have h1 : ¬ String.mk name = k := by
            intro e; apply hk; rw [← e]
          have h2 : ¬ tagMarker ++ k.data = tagMarker ++ name := by
            intro e; exact hk (List.append_cancel_left e).symm
          simp [h1, h2]

theorem tagMatches_skip (skipped rest : List Char) (before : Option Char) (h : skipped ≠ []) :
    tagMatches skipped.length before (skipped ++ rest) = tagMatches 0 skipped.getLast? rest := by
  induction skipped generalizing before with
  | nil => exact absurd rfl h
  | cons c t ih =>
      cases t with
      | nil => simp [tagMatches]
      | cons d t2 =>
          have hstep := ih (some c) (by simp)
          simp only [List.length_cons, List.cons_append, tagMatches] at hstep ⊢
          rw [hstep]
          simp [List.getLast?_cons_cons]

theorem tagMatches_behind_match (post : List Char) (b1 b2 : Option Char)
    (hpost : ∀ c ∈ post.head?, isWordChar c = false) :
    tagMatches 0 b1 post = tagMatches 0 b2 post := by
  cases post with
  | nil => simp [tagMatches]
  | cons c rest =>
      have hc : isWordChar c = false := hpost c (by simp)
      have hne : ¬ c = '_' := by
        intro e
        rw [e] at hc
        exact absurd hc (by decide)
      have hnone : ∀ b, matchTagAt b (c :: rest) = none := by
        intro b
        have hpre : tagMarker.isPrefixOf (c :: rest) = false := by
          have hne2 : ¬ '_' = c := fun e => hne e.symm
          simp [tagMarker, List.isPrefixOf, hne2]
        simp [matchTagAt, hpre]
      simp only [tagMatches, hnone]

theorem tagMatches_at_occurrence (before : Option Char) (s name : List Char) (len : Nat)
    (h : MarkerOccurs before s name len) :
    tagMatches 0 before s = (tagMarker ++ name) :: tagMatches 0 none (s.drop len) := by
  have hmatch := matchTagAt_of_occurs before s name len h
  obtain ⟨ws1, ws2, sel, post, hs, _, _, _, _, _, _, _, hpost, hlen⟩ := h
  have hshape : s = '_' :: ((['_', 't', 'a', 'g', '_'] ++ (name ++ (ws1 ++ ':' :: (ws2 ++ sel))))
      ++ post) := by
    rw [hs]
    simp [tagMarker]
  have hlen2 : len - 1 = (['_', 't', 'a', 'g', '_'] ++ (name ++ (ws1 ++ ':' :: (ws2 ++ sel)))).length := by
    rw [hlen]
    simp only [tagMarker, List.length_append, List.length_cons, List.length_nil]
    omega
  have hdrop : s.drop len = post := by
    have hl : len = ('_' :: (['_', 't', 'a', 'g', '_'] ++ (name ++ (ws1 ++ ':' :: (ws2 ++ sel))))).length := by
      rw [List.length_cons, ← hlen2, hlen]
      simp only [tagMarker, List.length_cons, List.length_nil]
      omega
    rw [hshape, hl, ← List.cons_append]
    exact List.drop_left _ _
  rw [hdrop]
  rw [hshape] at hmatch ⊢
  simp only [tagMatches, hmatch]
  rw [hlen2, tagMatches_skip _ post (some '_') (by simp)]
  rw [tagMatches_behind_match post _ none hpost]

theorem tagMatches_first_occurrence (pre post name : List Char) (len : Nat) (before : Option Char)
    (lead : List Char) (hbefore : before = lead.getLast?)
    (hocc : MarkerOccurs (lead ++ pre).getLast? post name len)
    (hfirst : ∀ pre2 post2 name2 len2, pre ++ post = pre2 ++ post2 → pre2.length < pre.length →
      ¬ MarkerOccurs (lead ++ pre2).getLast? post2 name2 len2) :
    tagMarker ++ name ∈ tagMatches 0 before (pre ++ post) := by
  induction pre generalizing before lead with
  | nil =>
      simp only [List.nil_append, List.append_nil] at hocc ⊢
      rw [hbefore, tagMatches_at_occurrence _ post name len hocc]
      exact List.mem_cons_self _ _
  | cons c rest ih =>
      have hnone : matchTagAt before (c :: (rest ++ post)) = none := by
        cases hm : matchTagAt before (c :: (rest ++ post)) with
        | none => rfl
        | some found =>
            obtain ⟨m, l⟩ := found
            obtain ⟨name2, _, h2⟩ := occurs_of_matchTagAt _ _ _ _ hm
            exfalso
            refine hfirst [] (c :: (rest ++ post)) name2 l rfl (by simp) ?_
            simpa [hbefore] using h2
      have hstep : tagMatches 0 before (c :: (rest ++ post)) =
          tagMatches 0 (some c) (rest ++ post) := by
        simp only [tagMatches, hnone]
      rw [List.cons_append, hstep]
      refine ih (some c) (lead ++ [c]) (List.getLast?_concat lead).symm ?_ ?_
      · simpa using hocc
      · intro pre2 post2 name2 len2 heq hlt hocc2
        refine hfirst (c :: pre2) post2 name2 len2 ?_ ?_ ?_
        · simp [heq]
        · simpa using hlt
        · simpa using hocc2

/-- C7: `ParseGraphQLTags` returns the map from the stripped marker to the marker, over
the marker tokens matched in the template: a key `k` is bound to `v` exactly when `v`
is `__tag_` followed by `k` and `v` is one of the matched tokens, whichever occurrence
of it came last; every key is non-empty; every matched token stands in the template at
a word boundary as `__tag_`, a non-empty run of word characters, optional whitespace,
a colon, optional whitespace and a selector; a token that stands so where the scan
stands is matched as `__tag_` followed by its name whatever the selector is, and the
scan goes on behind the selector; and the first such token of the template is always
among the matched ones. -/
theorem ParseGraphQLTags_markers (query : String) :
    (∀ k v, mapGet k (ParseGraphQLTags query) = some v ↔
      (v = "__tag_" ++ k ∧ v.data ∈ tagMatches 0 none query.data)) ∧
    (∀ k v, mapGet k (ParseGraphQLTags query) = some v → k ≠ "") ∧
    (∀ m, m ∈ tagMatches 0 none query.data →
      ∃ pre post name len, query.data = pre ++ post ∧ m = tagMarker ++ name ∧
        MarkerOccurs pre.getLast? post name len) ∧
    (∀ before s name len, MarkerOccurs before s name len →
      matchTagAt before s = some (tagMarker ++ name, len) ∧
      tagMatches 0 before s = (tagMarker ++ name) :: tagMatches 0 none (s.drop len)) ∧
    (∀ pre post name len, query.data = pre ++ post → MarkerOccurs pre.getLast? post name len →
      (∀ pre2 post2 name2 len2, query.data = pre2 ++ post2 → pre2.length < pre.length →
        ¬ MarkerOccurs pre2.getLast? post2 name2 len2) →
      tagMarker ++ name ∈ tagMatches 0 none query.data) := by
  have hocc : ∀ m, m ∈ tagMatches 0 none query.data →
      ∃ pre post name len, query.data = pre ++ post ∧ m = tagMarker ++ name ∧
        MarkerOccurs pre.getLast? post name len := by
    intro m hm
    have := tagMatches_occurs query.data 0 [] m (by simpa using hm)
    simpa using this
  have hshape : ∀ m ∈ tagMatches 0 none query.data, ∃ name, m = tagMarker ++ name := by
    intro m hm
    obtain ⟨_, _, name, _, _, h, _⟩ := hocc m hm
    exact ⟨name, h⟩
  have hget : ∀ k v, mapGet k (ParseGraphQLTags query) = some v ↔
      (v = "__tag_" ++ k ∧ v.data ∈ tagMatches 0 none query.data) := by
    intro k v
    have hlit : ("__tag_" ++ k : String) = String.mk (tagMarker ++ k.data) := by
      apply String.ext
      simp [tagMarker]
    rw [ParseGraphQLTags, collectTags_get _ [] k hshape, hlit]
    by_cases hin : tagMarker ++ k.data ∈ tagMatches 0 none query.data
    · simp only [hin, if_true, Option.some.injEq]
      constructor
      · intro h; subst h; exact ⟨rfl, hin⟩
      · intro h; exact h.1.symm
    · simp only [hin, if_false, mapGet, false_iff, reduceCtorEq, not_and]
      intro hv hmem
      rw [hv] at hmem
      exact hin hmem
  refine ⟨hget, ?_, hocc, ?_, ?_⟩
  rotate_left
  · intro before s name len h
    exact ⟨matchTagAt_of_occurs before s name len h, tagMatches_at_occurrence before s name len h⟩
  · intro pre post name len hq hoccurs hfirst
    rw [hq]
    refine tagMatches_first_occurrence pre post name len none [] rfl (by simpa using hoccurs) ?_
    intro pre2 post2 name2 len2 heq hlt h2
    exact hfirst pre2 post2 name2 len2 (by rw [hq, heq]) hlt (by simpa using h2)
  intro k v hkv hk
  obtain ⟨hv, hmem⟩ := (hget k v).mp hkv
  obtain ⟨_, _, name, _, _, hm, _, _, _, _, _, _, hne, _⟩ := hocc _ hmem
  subst hk
  subst hv
  have : name = [] := by
    have h2 : tagMarker ++ ([] : List Char) = tagMarker ++ name := by simpa [tagMarker] using hm
    exact (List.append_cancel_left h2).symm
  exact hne this

/-- Witness of C7: a template with `__tag_status: status` and `__tag_site: site_name`
yields `{"status": "__tag_status", "site": "__tag_site"}`, and so does the template
with other selectors after the colons. -/
theorem ParseGraphQLTags_markers_witness :
    ParseGraphQLTags deviceQuery = [("status", "__tag_status"), ("site", "__tag_site")] ∧
    ParseGraphQLTags deviceQueryOtherSelectors = ParseGraphQLTags deviceQuery ∧
    ParseGraphQLTags "{ __tag_site: name other { __tag_site : slug } }" =
      [("site", "__tag_site")] := by
  decide

/-! ## What the extractor records -/

theorem mem_memberPairsMembers_of_mem (members : List (String × Json)) (k : String) (v : Json)
    (h : (k, v) ∈ members) : (k, v) ∈ memberPairsMembers members := by
  induction members with
  | nil => cases h
  | cons p rest ih =>
      obtain ⟨k2, t⟩ := p
      simp only [memberPairsMembers, List.mem_cons, List.mem_append]
      rcases List.mem_cons.mp h with h | h
      · exact Or.inl h
      · exact Or.inr (Or.inr (ih h))

theorem mem_memberPairsMembers_of_under (members : List (String × Json)) (k2 : String)
    (t : Json) (p : String × Json) (h : (k2, t) ∈ members) (hp : p ∈ memberPairs t) :
    p ∈ memberPairsMembers members := by
  induction members with
  | nil => cases h
  | cons q rest ih =>
      obtain ⟨k3, t3⟩ := q
      simp only [memberPairsMembers, List.mem_cons, List.mem_append]
      rcases List.mem_cons.mp h with h | h
      · simp only [Prod.mk.injEq] at h
        obtain ⟨_, h2⟩ := h
        subst h2
        exact Or.inr (Or.inl hp)
      · exact Or.inr (Or.inr (ih h))

theorem mem_memberPairsItems_of_within (items : List Json) (t : Json) (p : String × Json)
    (h : t ∈ items) (hp : p ∈ memberPairs t) : p ∈ memberPairsItems items := by
  induction items with
  | nil => cases h
  | cons x rest ih =>
      simp only [memberPairsItems, List.mem_append]
      rcases List.mem_cons.mp h with h | h
      · subst h
        exact Or.inl hp
      · exact Or.inr (ih h)

theorem mem_memberPairs_of_hasMember (t : Json) (k : String) (v : Json) (h : HasMember t k v) :
    (k, v) ∈ memberPairs t := by
  induction h with
  | here members k v hmem =>
      simp only [memberPairs]
      exact mem_memberPairsMembers_of_mem members k v hmem
  | under members k2 t k v hmem _ ih =>
      simp only [memberPairs]
      exact mem_memberPairsMembers_of_under members k2 t (k, v) hmem ih
  | within items t k v hmem _ ih =>
      simp only [memberPairs]
      exact mem_memberPairsItems_of_within items t (k, v) hmem ih

theorem hasMember_obj_cons (p : String × Json) (rest : List (String × Json)) (k : String)
    (v : Json) (h : HasMember (.obj rest) k v) : HasMember (.obj (p :: rest)) k v := by
  cases h with
  | here _ _ _ hmem => exact HasMember.here _ k v (List.mem_cons_of_mem _ hmem)
  | under _ k2 t _ _ hmem ht => exact HasMember.under _ k2 t k v (List.mem_cons_of_mem _ hmem) ht

theorem hasMember_arr_cons (x : Json) (rest : List Json) (k : String)
    (v : Json) (h : HasMember (.arr rest) k v) : HasMember (.arr (x :: rest)) k v := by
  cases h with
  | within _ t _ _ hmem ht => exact HasMember.within _ t k v (List.mem_cons_of_mem _ hmem) ht

mutual
theorem hasMember_of_mem_memberPairs (k : String) (v : Json) :
    ∀ t : Json, (k, v) ∈ memberPairs t → HasMember t k v
  | .obj members, h => by
      simp only [memberPairs] at h
      exact hasMember_of_mem_members k v members h
  | .arr items, h => by
      simp only [memberPairs] at h
      exact hasMember_of_mem_items k v items h
  | .null, h => by simp [memberPairs] at h
  | .bool _, h => by simp [memberPairs] at h
  | .num _, h => by simp [memberPairs] at h
  | .str _, h => by simp [memberPairs] at h
theorem hasMember_of_mem_members (k : String) (v : Json) :
    ∀ members : List (String × Json), (k, v) ∈ memberPairsMembers members →
      HasMember (.obj members) k v
  | [], h => by simp [memberPairsMembers] at h
  | (k2, t) :: rest, h => by
      simp only [memberPairsMembers, List.mem_cons, List.mem_append] at h
      rcases h with h | h | h
      · exact HasMember.here _ k v (by rw [h]; exact List.mem_cons_self _ _)
      · exact HasMember.under _ k2 t k v (List.mem_cons_self _ _)
          (hasMember_of_mem_memberPairs k v t h)
      · exact hasMember_obj_cons _ _ k v (hasMember_of_mem_members k v rest h)
theorem hasMember_of_mem_items (k : String) (v : Json) :
    ∀ items : List Json, (k, v) ∈ memberPairsItems items → HasMember (.arr items) k v
  | [], h => by simp [memberPairsItems] at h
  | x :: rest, h => by
      simp only [memberPairsItems, List.mem_append] at h
      rcases h with h | h
      · exact HasMember.within _ x k v (List.mem_cons_self _ _)
          (hasMember_of_mem_memberPairs k v x h)
      · exact hasMember_arr_cons _ _ k v (hasMember_of_mem_items k v rest h)
end

theorem hasMember_iff (t : Json) (k : String) (v : Json) :
    HasMember t k v ↔ (k, v) ∈ memberPairs t :=
  ⟨mem_memberPairs_of_hasMember t k v, hasMember_of_mem_memberPairs k v t⟩

theorem lastMatch_isSome_of_mem (aliasMap : List (String × String)) (cleanKey : String)
    (pairs : List (String × Json)) (marker : String) (val : Json)
    (h1 : (cleanKey, marker) ∈ aliasMap) (h2 : (marker, val) ∈ pairs) :
    ∃ v, lastMatch aliasMap cleanKey pairs = some v := by
  cases hl : lastMatch aliasMap cleanKey pairs with
  | some v => exact ⟨v, rfl⟩
  | none => exact absurd h2 ((lastMatch_eq_none aliasMap cleanKey pairs).mp hl marker val h1)

/-- C8: the extractor finds every marked node. Started from an empty result, a clean
key is present in the result exactly when the alias map gives it a marker that is the
key of a member of some object node of the tree, at any depth; the value recorded for a
clean key is a value stored under one of its markers somewhere in the tree; a scalar
tree leaves the result as it was, so empty when started empty; and started from any
result, a clean key none of whose markers occurs keeps the entry it had. -/
theorem extractor_finds_marked_nodes (t : Json) (aliasMap : List (String × String)) :
    (∀ k, (∃ v, mapGet k (extractAliasedFields t aliasMap []) = some v) ↔
      ∃ marker val, (k, marker) ∈ aliasMap ∧ HasMember t marker val) ∧
    (∀ k v, mapGet k (extractAliasedFields t aliasMap []) = some v →
      ∃ marker, (k, marker) ∈ aliasMap ∧ HasMember t marker v) ∧
    (t.isScalar = true → ∀ result, extractAliasedFields t aliasMap result = result) ∧
    (∀ result k, (∀ marker val, (k, marker) ∈ aliasMap → ¬ HasMember t marker val) →
      mapGet k (extractAliasedFields t aliasMap result) = mapGet k result) := by
  refine ⟨?_, ?_, ?_, ?_⟩
  · intro k
    rw [extractAliasedFields_get]
    constructor
    · rintro ⟨v, hv⟩
      cases hl : lastMatch aliasMap k (memberPairs t) with
      | none => rw [hl] at hv; simp [mapGet] at hv
      | some w =>
          obtain ⟨marker, h1, h2⟩ := lastMatch_eq_some aliasMap k _ w hl
          exact ⟨marker, w, h1, (hasMember_iff t marker w).mpr h2⟩
    · rintro ⟨marker, val, h1, h2⟩
      obtain ⟨v, hv⟩ := lastMatch_isSome_of_mem aliasMap k (memberPairs t) marker val h1
        ((hasMember_iff t marker val).mp h2)
      exact ⟨v, by rw [hv]⟩
  · intro k v hv
    rw [extractAliasedFields_get] at hv
    cases hl : lastMatch aliasMap k (memberPairs t) with
    | none => rw [hl] at hv; simp [mapGet] at hv
    | some w =>
        rw [hl] at hv
        simp only [Option.some.injEq] at hv
        subst hv
        obtain ⟨marker, h1, h2⟩ := lastMatch_eq_some aliasMap k _ w hl
        exact ⟨marker, h1, (hasMember_iff t marker w).mpr h2⟩
  · intro hscalar result
    cases t with
    | obj members => simp [Json.isScalar] at hscalar
    | arr items => simp [Json.isScalar] at hscalar
    | null => rfl
    | bool b => rfl
    | num n => rfl
    | str s => rfl
  · intro result k hnone
    rw [extractAliasedFields_get]
    have hl : lastMatch aliasMap k (memberPairs t) = none := by
      rw [lastMatch_eq_none]
      intro marker val h1 h2
      exact hnone marker val h1 ((hasMember_iff t marker val).mpr h2)
    rw [hl]

/-- Witness of C8: in the tree `{"__tag_status": "up", "site": {"__tag_site": "NYC"}}`
both markers are found, the nested one included. -/
theorem extractor_finds_marked_nodes_witness :
    mapGet "status" (extractAliasedFields deviceTree deviceAliases []) = some (.str "up") ∧
    mapGet "site" (extractAliasedFields deviceTree deviceAliases []) = some (.str "NYC") ∧
    extractAliasedFields (.str "up") deviceAliases [] = [] :=
  ⟨rfl, rfl, rfl⟩

/-- C9, as the code has it: the value recorded for a clean key is the value of the last
pair, in the depth-first walk of the tree, whose key is a marker of that clean key; when
there is none the entry is what it was before. The walk lists a member before the
members inside its value, takes the elements of a list in index order and takes the
members of an object in the order in which the runtime enumerates them. -/
theorem extractor_keeps_last_enumerated (t : Json) (aliasMap : List (String × String))
    (result : List (String × Json)) (k : String) :
    mapGet k (extractAliasedFields t aliasMap result) =
      match lastMatch aliasMap k (memberPairs t) with
      | some val => some val
      | none => mapGet k result :=
  extractAliasedFields_get t aliasMap k result

/-- C9 fails for the insertion order: the members of
`{"__tag_status": "outer", "site": {"__tag_status": "inner"}}`, enumerated with `site`
first, record `outer` for `status`, while the last match of the walk in the order of
the response text is `inner`. -/
theorem last_match_depends_on_enumeration :
    shadowedEnumerated.Perm shadowedInserted ∧
    mapGet "status" (extractAliasedFields (.obj shadowedEnumerated) deviceAliases []) =
      some (.str "outer") ∧
    lastMatch deviceAliases "status" (memberPairs (.obj shadowedInserted)) =
      some (.str "inner") ∧
    mapGet "status" (extractAliasedFields (.obj shadowedEnumerated) deviceAliases []) ≠
      lastMatch deviceAliases "status" (memberPairs (.obj shadowedInserted)) := by
  refine ⟨List.Perm.swap _ _ _, rfl, rfl, ?_⟩
  intro h
  have h2 : (some (Json.str "outer") : Option Json) = some (Json.str "inner") := h
  injection h2 with h3
  injection h3 with h4
  exact absurd h4 (by decide)

/-- Witness of C9: a marker inside the value of the same marker overrides the outer
one, and in a list the later element overrides the earlier one. -/
theorem extractor_keeps_last_enumerated_witness :
    mapGet "status" (extractAliasedFields
      (.obj [("__tag_status", .obj [("__tag_status", .str "inner")])]) deviceAliases []) =
      some (.str "inner") ∧
    mapGet "status" (extractAliasedFields
      (.arr [.obj [("__tag_status", .str "first")], .obj [("__tag_status", .str "second")]])
      deviceAliases []) = some (.str "second") :=
  ⟨rfl, rfl⟩

theorem extract_member_layer (k : String) (t : Json) (aliasMap : List (String × String))
    (result : List (String × Json)) (hk : ∀ cleanKey, (cleanKey, k) ∉ aliasMap) :
    extractAliasedFields (.obj [(k, t)]) aliasMap result =
      extractAliasedFields t aliasMap result := by
  simp only [extractAliasedFields, extractMembers, recordMatches_of_not_marker k t aliasMap result hk]

theorem extract_single_layer (t : Json) (aliasMap : List (String × String))
    (result : List (String × Json)) :
    extractAliasedFields (.arr [t]) aliasMap result = extractAliasedFields t aliasMap result := by
  simp only [extractAliasedFields, extractItems]

/-- C10, for one order of enumeration: extraction does not depend on nesting depth. For
a key that is no marker of the alias map, the tree wrapped as `{k: t}`, the tree wrapped
as `[t]` and the tree itself, the members of every object of the tree enumerated in the
same order in the three runs, give the same result from every initial result; hence any
number of such layers around the tree leaves the result unchanged. -/
theorem extraction_ignores_wrapping (t : Json) (aliasMap : List (String × String))
    (result : List (String × Json)) (k : String) (hk : ∀ cleanKey, (cleanKey, k) ∉ aliasMap) :
    extractAliasedFields (.obj [(k, t)]) aliasMap result =
      extractAliasedFields (.arr [t]) aliasMap result ∧
    extractAliasedFields (.arr [t]) aliasMap result = extractAliasedFields t aliasMap result ∧
    ∀ layers : List Layer,
      (∀ layer ∈ layers, ∀ key ∈ layer.key?, ∀ cleanKey, (cleanKey, key) ∉ aliasMap) →
      extractAliasedFields (wrap layers t) aliasMap result =
        extractAliasedFields t aliasMap result := by
  refine ⟨?_, extract_single_layer t aliasMap result, ?_⟩
  · rw [extract_member_layer k t aliasMap result hk, extract_single_layer]
  · intro layers
    induction layers with
    | nil => intro _; rfl
    | cons layer rest ih =>
        intro hl
        have hrest := ih (fun l hmem => hl l (List.mem_cons_of_mem _ hmem))
        cases layer with
        | member key =>
            have hkey : ∀ cleanKey, (cleanKey, key) ∉ aliasMap :=
              hl (.member key) (List.mem_cons_self _ _) key (by simp [Layer.key?])
            simp only [wrap]
            rw [extract_member_layer key _ aliasMap result hkey, hrest]
        | single =>
            simp only [wrap]
            rw [extract_single_layer, hrest]

/-- C10 fails across orders of enumeration: the tree
`{"__tag_status": "outer", "site": {"__tag_status": "inner"}}` under the key `device`,
which is no marker, its members enumerated with `site` first, records `outer` for
`status`, while the tree itself, its members enumerated in the order of the response
text, records `inner`; the same holds for the tree in a single-element list. -/
theorem wrapping_depends_on_enumeration :
    shadowedEnumerated.Perm shadowedInserted ∧
    (∀ cleanKey, (cleanKey, "device") ∉ deviceAliases) ∧
    extractAliasedFields (.obj [("device", .obj shadowedEnumerated)]) deviceAliases [] =
      [("status", .str "outer")] ∧
    extractAliasedFields (.arr [.obj shadowedEnumerated]) deviceAliases [] =
      [("status", .str "outer")] ∧
    extractAliasedFields (.obj shadowedInserted) deviceAliases [] = [("status", .str "inner")] ∧
    extractAliasedFields (.obj [("device", .obj shadowedEnumerated)]) deviceAliases [] ≠
      extractAliasedFields (.obj shadowedInserted) deviceAliases [] := by
  refine ⟨List.Perm.swap _ _ _, ?_, rfl, rfl, rfl, ?_⟩
  · intro cleanKey h
    simp [deviceAliases] at h
  · intro h
    have h2 : ([("status", Json.str "outer")] : List (String × Json)) =
        [("status", Json.str "inner")] := h
    injection h2 with h3 _
    injection h3 with _ h4
    injection h4 with h5
    exact absurd h5 (by decide)

/-- Witness of C10: the tree `{"__tag_status": "up", "site": {"__tag_site": "NYC"}}`
with the alias map `{"status": "__tag_status", "site": "__tag_site"}` yields
`{"status": "up", "site": "NYC"}`, and so does the tree under the key `device` or in
a single-element list. -/
theorem extraction_ignores_wrapping_witness :
    extractAliasedFields deviceTree deviceAliases [] =
      [("status", .str "up"), ("site", .str "NYC")] ∧
    (extractAliasedFields (.obj [("device", deviceTree)]) deviceAliases [] =
      extractAliasedFields (.arr [deviceTree]) deviceAliases [] ∧
    extractAliasedFields (.arr [deviceTree]) deviceAliases [] =
      extractAliasedFields deviceTree deviceAliases [] ∧
    ∀ layers : List Layer,
      (∀ layer ∈ layers, ∀ key ∈ layer.key?, ∀ cleanKey, (cleanKey, key) ∉ deviceAliases) →
      extractAliasedFields (wrap layers deviceTree) deviceAliases [] =
        extractAliasedFields deviceTree deviceAliases []) :=
  ⟨rfl, extraction_ignores_wrapping deviceTree deviceAliases [] "device"
    (by intro cleanKey h; simp [deviceAliases] at h)⟩

/-! ## Idempotence of the extractor -/

theorem assignAll_append (ops1 ops2 result : List (String × Json)) :
    assignAll (ops1 ++ ops2) result = assignAll ops2 (assignAll ops1 result) := by
  induction ops1 generalizing result with
  | nil => rfl
  | cons p rest ih =>
      obtain ⟨k, v⟩ := p
      show assignAll (rest ++ ops2) (mapSet k v result) = _
      rw [ih]
      rfl

theorem recordMatches_eq_assignAll (k : String) (val : Json) (aliasMap : List (String × String))
    (result : List (String × Json)) :
    recordMatches k val aliasMap result = assignAll (assignmentsOf aliasMap k val) result := by
  induction aliasMap generalizing result with
  | nil => rfl
  | cons p rest ih =>
      obtain ⟨c, mk⟩ := p
      by_cases hk : k = mk
      · simp only [recordMatches, assignmentsOf, List.filterMap_cons, hk, if_true, assignAll]
        have := ih (mapSet c val result)
        simp only [assignmentsOf, hk] at this
        exact this
      · simp only [recordMatches, assignmentsOf, List.filterMap_cons, hk, if_false]
        have := ih result
        simp only [assignmentsOf] at this
        exact this

theorem recordAll_eq_assignAll (aliasMap : List (String × String))
    (pairs result : List (String × Json)) :
    recordAll aliasMap pairs result = assignAll (assignments aliasMap pairs) result := by
  induction pairs generalizing result with
  | nil => rfl
  | cons p rest ih =>
      obtain ⟨k, val⟩ := p
      simp only [recordAll, assignments, assignAll_append, recordMatches_eq_assignAll, ih]

theorem assignAll_cons (ops : List (String × Json)) (a : String) (b : Json)
    (result : List (String × Json)) :
    assignAll ops ((a, b) :: result) =
      (a, (lastAssigned a ops).getD b) ::
        assignAll (ops.filter (fun p => decide (p.1 ≠ a))) result := by
  induction ops generalizing b result with
  | nil => simp [assignAll, lastAssigned]
  | cons p rest ih =>
      obtain ⟨k, v⟩ := p
      by_cases hk : a = k
      · subst hk
        simp only [assignAll, mapSet, if_true, ih, lastAssigned, List.filter_cons, ne_eq,
          not_true_eq_false, decide_False, Bool.false_eq_true, if_false]
        cases lastAssigned a rest <;> rfl
      · have hk2 : ¬ k = a := fun e => hk e.symm
        simp only [assignAll, mapSet, hk, if_false, ih, lastAssigned, hk2, List.filter_cons,
          ne_eq, not_false_eq_true, decide_True, if_true]
        cases lastAssigned a rest <;> rfl

theorem assignAll_idempotent_aux (n : Nat) :
    ∀ (ops result : List (String × Json)), ops.length + result.length ≤ n →
      assignAll ops (assignAll ops result) = assignAll ops result := by
  induction n with
  | zero =>
      intro ops result h
      have h1 : ops = [] := List.eq_nil_of_length_eq_zero (by omega)
      subst h1
      rfl
  | succ n ih =>
      intro ops result h
      cases result with
      | cons p rest =>
          obtain ⟨a, b⟩ := p
          have hlen : (ops.filter (fun p => decide (p.1 ≠ a))).length ≤ ops.length :=
            List.length_filter_le _ _
          have hrec := ih (ops.filter (fun p => decide (p.1 ≠ a))) rest
            (by simp only [List.length_cons] at h; omega)
          rw [assignAll_cons, assignAll_cons, hrec]
          cases lastAssigned a ops <;> rfl
      | nil =>
          cases ops with
          | nil => rfl
          | cons q ops0 =>
              obtain ⟨k, v⟩ := q
              have hlen : (ops0.filter (fun p => decide (p.1 ≠ k))).length ≤ ops0.length :=
                List.length_filter_le _ _
              have hrec := ih (ops0.filter (fun p => decide (p.1 ≠ k))) []
                (by simp only [List.length_cons, List.length_nil] at h ⊢; omega)
              have hfirst : assignAll ((k, v) :: ops0) [] =
                  (k, (lastAssigned k ops0).getD v) ::
                    assignAll (ops0.filter (fun p => decide (p.1 ≠ k))) [] := by
                simp only [assignAll, mapSet, assignAll_cons]
              have hfilter : ((k, v) :: ops0).filter (fun p => decide (p.1 ≠ k)) =
                  ops0.filter (fun p => decide (p.1 ≠ k)) := by
                simp [List.filter_cons]
              rw [hfirst, assignAll_cons, hfilter, hrec]
              simp only [lastAssigned, if_true]
              cases lastAssigned k ops0 <;> rfl

theorem assignAll_idempotent (ops result : List (String × Json)) :
    assignAll ops (assignAll ops result) = assignAll ops result :=
  assignAll_idempotent_aux (ops.length + result.length) ops result (Nat.le_refl _)

/-- C11, for one order of enumeration: running the extractor a second time over the
same tree, its object members enumerated in the same order, and the same alias map onto
the result of the first run changes nothing. -/
theorem extraction_idempotent (t : Json) (aliasMap : List (String × String))
    (result : List (String × Json)) :
    extractAliasedFields t aliasMap (extractAliasedFields t aliasMap result) =
      extractAliasedFields t aliasMap result := by
  simp only [extractAliasedFields_eq_recordAll, recordAll_eq_assignAll]
  exact assignAll_idempotent _ _

/-- C11 fails across orders of enumeration: the first run over
`{"__tag_status": "outer", "site": {"__tag_status": "inner"}}` in the order of the
response text records `inner` for `status`; a second run over the same members,
enumerated with `site` first, onto that result changes it to `outer`. -/
theorem second_run_depends_on_enumeration :
    shadowedEnumerated.Perm shadowedInserted ∧
    extractAliasedFields (.obj shadowedInserted) deviceAliases [] = [("status", .str "inner")] ∧
    extractAliasedFields (.obj shadowedEnumerated) deviceAliases
      (extractAliasedFields (.obj shadowedInserted) deviceAliases []) =
      [("status", .str "outer")] ∧
    extractAliasedFields (.obj shadowedEnumerated) deviceAliases
      (extractAliasedFields (.obj shadowedInserted) deviceAliases []) ≠
      extractAliasedFields (.obj shadowedInserted) deviceAliases [] := by
  refine ⟨List.Perm.swap _ _ _, rfl, rfl, ?_⟩
  intro h
  have h2 : ([("status", Json.str "outer")] : List (String × Json)) =
      [("status", Json.str "inner")] := h
  injection h2 with h3 _
  injection h3 with _ h4
  injection h4 with h5
  exact absurd h5 (by decide)

/-- Witness of C11: on the device example a second run leaves the result of the first
run as it is. -/
theorem extraction_idempotent_witness :
    extractAliasedFields deviceTree deviceAliases
      (extractAliasedFields deviceTree deviceAliases []) =
      [("status", .str "up"), ("site", .str "NYC")] ∧
    extractAliasedFields deviceTree deviceAliases [] =
      [("status", .str "up"), ("site", .str "NYC")] :=
  ⟨rfl, rfl⟩

/-! ## The root element, status codes and error envelopes -/

/-- C12: when the root element is a list, only its first element is extracted from. For
a non-empty root list the worker returns the measurement with the tags of the
extraction over the first element alone, whatever the other elements are; for the
empty root list it returns the measurement unchanged. The same holds for one round-trip
of the batch loop with the root key `device_list`. -/
theorem first_element_only (g : GraphQLProcessor) (nb : NetboxProcessor)
    (fmtFloat : Nat → String) (urlParses : String → Bool) (roundTrip : HttpRequest → Outcome)
    (service : Nat → HttpRequest → Outcome) (aliasMap : List (String × String))
    (gqlVar value : String) (metric : Metric) (sent : List HttpRequest) (status : Nat)
    (body data : List (String × Json)) (first : Json) (others : List Json) :
    (urlParses g.Url = true →
      roundTrip (g.request metric) = Outcome.response status (some (.obj body)) →
      mapGet "data" body = some (.obj data) →
      (mapGet "__root_element" data = some (.arr (first :: others)) →
        g.processMetric fmtFloat urlParses roundTrip metric =
          [addTags fmtFloat (extractAliasedFields first g.aliasMap []) metric]) ∧
      (mapGet "__root_element" data = some (.arr []) →
        g.processMetric fmtFloat urlParses roundTrip metric = [metric])) ∧
    (urlParses nb.Url = true → metric.GetTag gqlVar = some value →
      service sent.length (nb.request gqlVar value) =
        Outcome.response status (some (.obj body)) →
      mapGet "data" body = some (.obj data) →
      (mapGet "device_list" data = some (.arr (first :: others)) →
        (nb.enrich fmtFloat urlParses service aliasMap gqlVar metric sent).1 =
          addTags fmtFloat (extractAliasedFields first aliasMap []) metric) ∧
      (mapGet "device_list" data = some (.arr []) →
        (nb.enrich fmtFloat urlParses service aliasMap gqlVar metric sent).1 = metric)) := by
  constructor
  · intro hurl hresp hdata
    constructor
    · intro hroot
      unfold GraphQLProcessor.processMetric
      simp [hurl, hresp, unmarshalMap, hdata, hroot]
    · intro hroot
      unfold GraphQLProcessor.processMetric
      simp [hurl, hresp, unmarshalMap, hdata, hroot]
  · intro hurl htag hresp hdata
    constructor
    · intro hroot
      unfold NetboxProcessor.enrich
      simp [hurl, htag, hresp, unmarshalMap, hdata, hroot]
    · intro hroot
      unfold NetboxProcessor.enrich
      simp [hurl, htag, hresp, unmarshalMap, hdata, hroot]

/-- Witness of C12: with a root list of two elements only the first one gives tags (the
status that occurs in the second element alone is not added); the responses
`{"data":{"__root_element":[]}}` and `{"data":{"device_list":[]}}` leave the measurement
unchanged. -/
theorem first_element_only_witness :
    (startedWith listQuery).processMetric noFloats (fun _ => true)
        (fun _ => Outcome.response 200 (some (.obj listBody))) itemMetric =
      [{ itemMetric with tags := [("id", "42"), ("name", "widget")] }] ∧
    (startedWith listQuery).processMetric noFloats (fun _ => true)
        (fun _ => Outcome.response 200 (some (.obj emptyRootBody))) itemMetric = [itemMetric] ∧
    ((NetboxProcessor.mk urlQuery "u" "t").Apply noFloats (fun _ => true)
        (fun _ _ => Outcome.response 200 (some (.obj emptyDeviceBody))) [urlMetric]).1 =
      [urlMetric] := by
  decide

theorem processMetric_withStatus (g : GraphQLProcessor) (fmtFloat : Nat → String)
    (urlParses : String → Bool) (roundTrip : HttpRequest → Outcome) (metric : Metric)
    (status : Nat) :
    g.processMetric fmtFloat urlParses (fun req => (roundTrip req).withStatus status) metric =
      g.processMetric fmtFloat urlParses roundTrip metric := by
  unfold GraphQLProcessor.processMetric
  cases h : roundTrip (g.request metric) <;> simp [Outcome.withStatus, h]

theorem diagnostic_withStatus (g : GraphQLProcessor)
    (structDecode : Option (List String))
    (urlParses : String → Bool) (roundTrip : HttpRequest → Outcome) (metric : Metric)
    (status : Nat) :
    g.diagnostic structDecode urlParses (fun req => (roundTrip req).withStatus status) metric =
      g.diagnostic structDecode urlParses roundTrip metric := by
  unfold GraphQLProcessor.diagnostic
  cases h : roundTrip (g.request metric) <;> simp [Outcome.withStatus, h]

/-- C13, as the code has it: the status code plays no part. Whatever status code a
response carries, the worker returns what it returns for the same body under any other
status code, and logs the same diagnostic; in particular a response with a non-success
status is passed through unchanged exactly when its body is one that is passed through
under a success status. -/
theorem status_code_is_ignored (g : GraphQLProcessor) (fmtFloat : Nat → String)
    (structDecode : Option (List String))
    (urlParses : String → Bool) (roundTrip : HttpRequest → Outcome) (metric : Metric)
    (status : Nat) :
    g.processMetric fmtFloat urlParses (fun req => (roundTrip req).withStatus status) metric =
      g.processMetric fmtFloat urlParses roundTrip metric ∧
    g.diagnostic structDecode urlParses (fun req => (roundTrip req).withStatus status) metric =
      g.diagnostic structDecode urlParses roundTrip metric ∧
    (FailedOutcome (roundTrip (g.request metric)) →
      g.processMetric fmtFloat urlParses (fun req => (roundTrip req).withStatus status) metric =
        [metric]) := by
  refine ⟨processMetric_withStatus g fmtFloat urlParses roundTrip metric status,
    diagnostic_withStatus g structDecode urlParses roundTrip metric status, ?_⟩
  intro hfail
  rw [processMetric_withStatus]
  unfold GraphQLProcessor.processMetric
  by_cases hu : urlParses g.Url = false
  · simp [hu]
  · simp only [hu, if_false]
    generalize roundTrip (g.request metric) = outcome at hfail
    cases hfail with
    | transport => rfl
    | unreadable status => rfl
    | undecodable status body hbody =>
        cases body with
        | none => rfl
        | some t =>
            cases t with
            | obj members => exact absurd rfl (hbody members)
            | null => rfl
            | bool b => rfl
            | num n => rfl
            | str s => rfl
            | arr items => rfl
    | noData status members hdata =>
        simp only [unmarshalMap]
        cases hd : mapGet "data" members with
        | none => rfl
        | some t =>
            cases t with
            | obj data => exact absurd hd (hdata data)
            | null => rfl
            | bool b => rfl
            | num n => rfl
            | str s => rfl
            | arr items => rfl
    | noRoot status members data hdata hroot =>
        simp [unmarshalMap, hdata, hroot]
    | scalarRoot status members data root hdata hroot hscalar =>
        simp only [unmarshalMap, hdata, hroot]
        cases root with
        | obj v => simp [Json.isScalar] at hscalar
        | arr items => simp [Json.isScalar] at hscalar
        | null => rfl
        | bool b => rfl
        | num n => rfl
        | str s => rfl

/-- C13 fails on the code: a response with status 500 whose body is
`{"data":{"__root_element":{"__tag_name":"widget"}}}` is not passed through; the
measurement comes back with the tag `name=widget` and the diagnostic is that of an
enrichment. -/
theorem server_error_still_enriches :
    (startedWith itemQuery).processMetric noFloats (fun _ => true)
        (fun _ => Outcome.response 500 (some (.obj itemBody))) itemMetric =
      [{ itemMetric with tags := [("id", "42"), ("name", "widget")] }] ∧
    (startedWith itemQuery).processMetric noFloats (fun _ => true)
        (fun _ => Outcome.response 500 (some (.obj itemBody))) itemMetric ≠ [itemMetric] ∧
    (startedWith itemQuery).diagnostic boomErrors (fun _ => true)
        (fun _ => Outcome.response 500 (some (.obj itemBody))) itemMetric = Diagnostic.enriched := by
  decide

/-- Witness of C13: a response with status 500 and the body `{"data":{"other":1}}` is
passed through unchanged, as it is under status 200. -/
theorem status_code_is_ignored_witness :
    (startedWith itemQuery).processMetric noFloats (fun _ => true)
        (fun _ => Outcome.response 500 (some (.obj shapelessBody))) itemMetric = [itemMetric] ∧
    (startedWith itemQuery).processMetric noFloats (fun _ => true)
        (fun _ => Outcome.response 200 (some (.obj shapelessBody))) itemMetric = [itemMetric] := by
  decide

theorem diagnostic_of_object (g : GraphQLProcessor) (structDecode : Option (List String))
    (urlParses : String → Bool) (roundTrip : HttpRequest → Outcome) (metric : Metric)
    (status : Nat) (members : List (String × Json)) (messages : List String)
    (hresp : roundTrip (g.request metric) = Outcome.response status (some (.obj members))) :
    g.diagnostic structDecode urlParses roundTrip metric ≠ Diagnostic.graphqlErrors messages := by
  unfold GraphQLProcessor.diagnostic
  split
  · simp
  · simp only [hresp, unmarshalMap]
    split
    · split <;> simp
    · simp

/-- C14, evaluated on the code: the body
`{"errors":[{"message":"boom"}],"data":{"__root_element":{"__tag_name":"widget"}}}`
carries a non-empty `errors` list, and yet the worker enriches the measurement with
`name=widget` and logs an enrichment, although decoding the body as an error envelope
would yield the message. The envelope is looked for only after the body has failed to
decode into the map: no body that decodes as an object is classified as a query error,
whatever else it holds. The envelope branch is taken, and the measurement passed
through, for a body that fails to decode into the map and decodes as an envelope. -/
theorem errors_envelope_is_not_seen :
    mapGet "errors" errorsAndDataBody = some (.arr [.obj [("message", .str "boom")]]) ∧
    (startedWith itemQuery).processMetric noFloats (fun _ => true)
        (fun _ => Outcome.response 200 (some (.obj errorsAndDataBody))) itemMetric =
      [{ itemMetric with tags := [("id", "42"), ("name", "widget")] }] ∧
    (startedWith itemQuery).diagnostic boomErrors (fun _ => true)
        (fun _ => Outcome.response 200 (some (.obj errorsAndDataBody))) itemMetric =
      Diagnostic.enriched ∧
    (∀ (g : GraphQLProcessor) (structDecode : Option (List String))
      (urlParses : String → Bool) (roundTrip : HttpRequest → Outcome) (metric : Metric)
      (status : Nat) (members : List (String × Json)) (messages : List String),
      roundTrip (g.request metric) = Outcome.response status (some (.obj members)) →
      g.diagnostic structDecode urlParses roundTrip metric ≠
        Diagnostic.graphqlErrors messages) ∧
    (startedWith itemQuery).diagnostic boomErrors (fun _ => true)
        (fun _ => Outcome.response 200 none) itemMetric = Diagnostic.graphqlErrors ["boom"] ∧
    (startedWith itemQuery).processMetric noFloats (fun _ => true)
        (fun _ => Outcome.response 200 none) itemMetric = [itemMetric] :=
  ⟨rfl, by decide, by decide, diagnostic_of_object, by decide, by decide⟩

/-! ## Tags that are kept -/

theorem keepsTags_refl (aliasMap : List (String × String)) (m : Metric) :
    keepsTags aliasMap m m :=
  ⟨sameButTags_refl m, fun _ value h => ⟨value, h⟩, fun _ _ => rfl⟩

theorem keepsTags_trans (aliasMap : List (String × String)) {a b c : Metric}
    (h1 : keepsTags aliasMap a b) (h2 : keepsTags aliasMap b c) : keepsTags aliasMap a c := by
  obtain ⟨s1, p1, e1⟩ := h1
  obtain ⟨s2, p2, e2⟩ := h2
  refine ⟨sameButTags_trans s1 s2, ?_, ?_⟩
  · intro key value h
    obtain ⟨kept, hk⟩ := p1 key value h
    exact p2 key kept hk
  · intro key hkey
    rw [e2 key hkey, e1 key hkey]

theorem extract_key_is_cleanKey (node : Json) (aliasMap : List (String × String))
    (key : String) (val : Json)
    (h : mapGet key (extractAliasedFields node aliasMap []) = some val) :
    ∃ marker, (key, marker) ∈ aliasMap ∧ (marker, val) ∈ memberPairs node := by
  rw [extractAliasedFields_get] at h
  cases hl : lastMatch aliasMap key (memberPairs node) with
  | none => rw [hl] at h; simp [mapGet] at h
  | some w =>
      rw [hl] at h
      simp only [Option.some.injEq] at h
      subst h
      exact lastMatch_eq_some aliasMap key _ w hl

theorem addTags_keepsTags (fmtFloat : Nat → String) (node : Json)
    (aliasMap : List (String × String)) (metric : Metric) :
    keepsTags aliasMap metric
      (addTags fmtFloat (extractAliasedFields node aliasMap []) metric) := by
  have hget := fun key => addTags_get fmtFloat (extractAliasedFields node aliasMap []) metric key
    (extractAliasedFields_keys_nodup node aliasMap)
  refine ⟨addTags_sameButTags _ _ _, ?_, ?_⟩
  · intro key value h
    rw [hget key]
    cases mapGet key (extractAliasedFields node aliasMap []) with
    | some val => exact ⟨_, rfl⟩
    | none => exact ⟨value, h⟩
  · intro key hkey
    rw [hget key]
    cases hm : mapGet key (extractAliasedFields node aliasMap []) with
    | none => rfl
    | some val =>
        obtain ⟨marker, h1, _⟩ := extract_key_is_cleanKey node aliasMap key val hm
        exact absurd h1 (hkey marker)

theorem enrich_keepsTags (nb : NetboxProcessor) (fmtFloat : Nat → String)
    (urlParses : String → Bool) (service : Nat → HttpRequest → Outcome)
    (aliasMap : List (String × String)) (gqlVar : String) (metric : Metric)
    (sent : List HttpRequest) :
    keepsTags aliasMap metric
      (nb.enrich fmtFloat urlParses service aliasMap gqlVar metric sent).1 := by
  rcases enrich_cases nb fmtFloat urlParses service aliasMap gqlVar metric sent with h | ⟨node, h⟩
  · rw [h]; exact keepsTags_refl aliasMap metric
  · rw [h]; exact addTags_keepsTags _ _ _ _

theorem applyVar_keepsTags (nb : NetboxProcessor) (fmtFloat : Nat → String)
    (urlParses : String → Bool) (service : Nat → HttpRequest → Outcome)
    (aliasMap : List (String × String)) (gqlVar : String) (metrics : List Metric)
    (sent : List HttpRequest) :
    List.Forall₂ (keepsTags aliasMap) metrics
      (nb.applyVar fmtFloat urlParses service aliasMap gqlVar metrics sent).1 := by
  induction metrics generalizing sent with
  | nil => simp [NetboxProcessor.applyVar]
  | cons m rest ih =>
      simp only [NetboxProcessor.applyVar]
      exact List.Forall₂.cons (enrich_keepsTags _ _ _ _ _ _ _ _) (ih _)

theorem forall₂_keepsTags_trans (aliasMap : List (String × String)) {as bs cs : List Metric}
    (h1 : List.Forall₂ (keepsTags aliasMap) as bs)
    (h2 : List.Forall₂ (keepsTags aliasMap) bs cs) :
    List.Forall₂ (keepsTags aliasMap) as cs := by
  induction h1 generalizing cs with
  | nil => cases h2; exact List.Forall₂.nil
  | cons hab _ ih =>
      cases h2 with
      | cons hbc hrest => exact List.Forall₂.cons (keepsTags_trans aliasMap hab hbc) (ih hrest)

theorem forall₂_keepsTags_refl (aliasMap : List (String × String)) (ms : List Metric) :
    List.Forall₂ (keepsTags aliasMap) ms ms := by
  induction ms with
  | nil => exact List.Forall₂.nil
  | cons m rest ih => exact List.Forall₂.cons (keepsTags_refl aliasMap m) ih

theorem applyVars_keepsTags (nb : NetboxProcessor) (fmtFloat : Nat → String)
    (urlParses : String → Bool) (service : Nat → HttpRequest → Outcome)
    (aliasMap : List (String × String)) (gqlVars : List String) (metrics : List Metric)
    (sent : List HttpRequest) :
    List.Forall₂ (keepsTags aliasMap) metrics
      (nb.applyVars fmtFloat urlParses service aliasMap gqlVars metrics sent).1 := by
  induction gqlVars generalizing metrics sent with
  | nil => simpa [NetboxProcessor.applyVars] using forall₂_keepsTags_refl aliasMap metrics
  | cons v rest ih =>
      simp only [NetboxProcessor.applyVars]
      exact forall₂_keepsTags_trans aliasMap (applyVar_keepsTags _ _ _ _ _ _ _ _) (ih _ _)

/-- C15, as the code has it: the core never removes a tag and never changes name, fields
or time. Every tag key of the input measurement is a tag key of the output measurement,
and a key that is no clean key of the alias map carries its input value; a tag whose key
is a clean key of the alias map may be overwritten by the enrichment. This holds for the
one measurement that `processMetric` returns and, element by element, for the
measurements that `Apply` returns. -/
theorem tags_are_kept (g : GraphQLProcessor) (nb : NetboxProcessor) (fmtFloat : Nat → String)
    (urlParses : String → Bool) (roundTrip : HttpRequest → Outcome)
    (service : Nat → HttpRequest → Outcome) (metric : Metric) (metrics : List Metric) :
    (∃ out, g.processMetric fmtFloat urlParses roundTrip metric = [out] ∧
      out.fields = metric.fields ∧ out.name = metric.name ∧ keepsTags g.aliasMap metric out) ∧
    List.Forall₂ (fun m out => out.fields = m.fields ∧ out.name = m.name ∧
        keepsTags (ParseGraphQLTags nb.GraphQLQuery) m out)
      metrics (nb.Apply fmtFloat urlParses service metrics).1 := by
  have hfields : ∀ (am : List (String × String)) (a b : Metric), keepsTags am a b →
      b.fields = a.fields ∧ b.name = a.name ∧ keepsTags am a b := by
    intro am a b h
    obtain ⟨tags, ht⟩ := h.1
    exact ⟨by rw [ht], by rw [ht], h⟩
  constructor
  · rcases processMetric_cases g fmtFloat urlParses roundTrip metric with h | ⟨node, h⟩
    · exact ⟨metric, h, rfl, rfl, keepsTags_refl _ _⟩
    · have hk := addTags_keepsTags fmtFloat node g.aliasMap metric
      obtain ⟨h1, h2, h3⟩ := hfields _ _ _ hk
      exact ⟨_, h, h1, h2, h3⟩
  · have hall : List.Forall₂ (keepsTags (ParseGraphQLTags nb.GraphQLQuery)) metrics
        (nb.Apply fmtFloat urlParses service metrics).1 :=
      applyVars_keepsTags _ _ _ _ _ _ _ _
    exact List.Forall₂.imp (fun a b h => hfields _ a b h) hall

/-- C15 fails on the code: a measurement that carries `name=old` comes back from the
end-to-end example with `name=widget`; the tag it had is overwritten. -/
theorem existing_tag_is_overwritten :
    namedMetric.GetTag "name" = some "old" ∧
    (startedWith itemQuery).processMetric noFloats (fun _ => true)
        (fun _ => Outcome.response 200 (some (.obj itemBody))) namedMetric =
      [{ namedMetric with tags := [("id", "42"), ("name", "widget")] }] ∧
    (∀ out ∈ (startedWith itemQuery).processMetric noFloats (fun _ => true)
        (fun _ => Outcome.response 200 (some (.obj itemBody))) namedMetric,
      out.GetTag "name" ≠ namedMetric.GetTag "name") := by
  decide

/-- Witness of C15: in the same run the tag `id`, which is no clean key of the alias
map, keeps its value, and the fields are those of the input. -/
theorem tags_are_kept_witness :
    namedMetric.GetTag "id" = some "42" ∧
    ∀ out ∈ (startedWith itemQuery).processMetric noFloats (fun _ => true)
        (fun _ => Outcome.response 200 (some (.obj itemBody))) namedMetric,
      out.GetTag "id" = some "42" ∧ out.fields = namedMetric.fields := by
  decide

/-! ## Requests of the batch loop -/

theorem enrich_sent (nb : NetboxProcessor) (fmtFloat : Nat → String)
    (urlParses : String → Bool) (service : Nat → HttpRequest → Outcome)
    (aliasMap : List (String × String)) (gqlVar : String) (metric : Metric)
    (sent : List HttpRequest) (hurl : urlParses nb.Url = true) :
    (nb.enrich fmtFloat urlParses service aliasMap gqlVar metric sent).2 =
      sent ++ requestsFor nb gqlVar [metric] := by
  unfold NetboxProcessor.enrich
  cases htag : metric.GetTag gqlVar with
  | none => simp [requestsFor, htag]
  | some value =>
      simp only [requestsFor, htag, hurl]
      split
      · rename_i hfalse
        exact absurd hfalse (by decide)
      · split
        · rfl
        · rfl
        · split
          · rfl
          · split
            · split
              · rfl
              · rfl
            · rfl

theorem requestsFor_cons (nb : NetboxProcessor) (gqlVar : String) (metric : Metric)
    (rest : List Metric) :
    requestsFor nb gqlVar (metric :: rest) =
      requestsFor nb gqlVar [metric] ++ requestsFor nb gqlVar rest := by
  cases htag : metric.GetTag gqlVar <;> simp [requestsFor, htag]

theorem applyVar_sent (nb : NetboxProcessor) (fmtFloat : Nat → String)
    (urlParses : String → Bool) (service : Nat → HttpRequest → Outcome)
    (aliasMap : List (String × String)) (gqlVar : String) (metrics : List Metric)
    (sent : List HttpRequest) (hurl : urlParses nb.Url = true) :
    (nb.applyVar fmtFloat urlParses service aliasMap gqlVar metrics sent).2 =
      sent ++ requestsFor nb gqlVar metrics := by
  induction metrics generalizing sent with
  | nil => simp [NetboxProcessor.applyVar, requestsFor]
  | cons m rest ih =>
      simp only [NetboxProcessor.applyVar]
      rw [ih, enrich_sent nb fmtFloat urlParses service aliasMap gqlVar m sent hurl,
        requestsFor_cons nb gqlVar m rest, List.append_assoc]

theorem requestsFor_of_keepsTags (nb : NetboxProcessor) (aliasMap : List (String × String))
    (gqlVar : String) (hvar : ∀ marker, (gqlVar, marker) ∉ aliasMap) {before after : List Metric}
    (h : List.Forall₂ (keepsTags aliasMap) before after) :
    requestsFor nb gqlVar after = requestsFor nb gqlVar before := by
  induction h with
  | nil => rfl
  | @cons a b as bs hab _ ih =>
      have htag : b.GetTag gqlVar = a.GetTag gqlVar := hab.2.2 gqlVar hvar
      simp only [requestsFor, htag, ih]

theorem applyVars_sent (nb : NetboxProcessor) (fmtFloat : Nat → String)
    (urlParses : String → Bool) (service : Nat → HttpRequest → Outcome)
    (aliasMap : List (String × String)) (gqlVars : List String) (input metrics : List Metric)
    (sent : List HttpRequest) (hurl : urlParses nb.Url = true)
    (hvars : ∀ v ∈ gqlVars, ∀ marker, (v, marker) ∉ aliasMap)
    (hkept : List.Forall₂ (keepsTags aliasMap) input metrics) :
    (nb.applyVars fmtFloat urlParses service aliasMap gqlVars metrics sent).2 =
      sent ++ expectedRequests nb gqlVars input := by
  induction gqlVars generalizing metrics sent with
  | nil => simp [NetboxProcessor.applyVars, expectedRequests]
  | cons v rest ih =>
      simp only [NetboxProcessor.applyVars, expectedRequests]
      have hpass := applyVar_keepsTags nb fmtFloat urlParses service aliasMap v metrics sent
      rw [ih (nb.applyVar fmtFloat urlParses service aliasMap v metrics sent).1
        (nb.applyVar fmtFloat urlParses service aliasMap v metrics sent).2
        (fun w hw => hvars w (List.mem_cons_of_mem _ hw))
        (forall₂_keepsTags_trans aliasMap hkept hpass)]
      rw [applyVar_sent nb fmtFloat urlParses service aliasMap v metrics sent hurl,
        requestsFor_of_keepsTags nb aliasMap v (hvars v (List.mem_cons_self _ _)) hkept,
        List.append_assoc]

/-- C16, as the code has it: with a well-formed URL, the pass of `Apply` for one
variable sends exactly one request for each measurement that carries the variable as a
tag when the pass reaches it, in order, each with the template text as query and the one
binding of the variable to that tag value; and when no variable of the template is a
clean key of the alias map, the requests that `Apply` sends are exactly one for each
pair of a variable and an input measurement that carries it, so their number does not
depend on what the service answers. -/
theorem one_request_per_supplied_variable (nb : NetboxProcessor) (fmtFloat : Nat → String)
    (urlParses : String → Bool) (service : Nat → HttpRequest → Outcome)
    (metrics : List Metric) (hurl : urlParses nb.Url = true) :
    (∀ aliasMap gqlVar sent,
      (nb.applyVar fmtFloat urlParses service aliasMap gqlVar metrics sent).2 =
        sent ++ requestsFor nb gqlVar metrics) ∧
    (∀ gqlVar value, (nb.request gqlVar value).body =
      { Query := nb.GraphQLQuery, Variables := [(gqlVar, value)] }) ∧
    ((∀ v ∈ ParseGraphQLVars nb.GraphQLQuery, ∀ marker,
        (v, marker) ∉ ParseGraphQLTags nb.GraphQLQuery) →
      (nb.Apply fmtFloat urlParses service metrics).2 =
        expectedRequests nb (ParseGraphQLVars nb.GraphQLQuery) metrics ∧
      ∀ other : Nat → HttpRequest → Outcome,
        (nb.Apply fmtFloat urlParses other metrics).2.length =
          (nb.Apply fmtFloat urlParses service metrics).2.length) := by
  refine ⟨?_, fun _ _ => rfl, ?_⟩
  · intro aliasMap gqlVar sent
    exact applyVar_sent nb fmtFloat urlParses service aliasMap gqlVar metrics sent hurl
  · intro hvars
    have hexact : ∀ svc : Nat → HttpRequest → Outcome,
        (nb.Apply fmtFloat urlParses svc metrics).2 =
          expectedRequests nb (ParseGraphQLVars nb.GraphQLQuery) metrics := by
      intro svc
      have h := applyVars_sent nb fmtFloat urlParses svc (ParseGraphQLTags nb.GraphQLQuery)
        (ParseGraphQLVars nb.GraphQLQuery) metrics metrics [] hurl hvars
        (forall₂_keepsTags_refl _ metrics)
      simpa [NetboxProcessor.Apply] using h
    refine ⟨hexact service, ?_⟩
    intro other
    rw [hexact other, hexact service]

/-- C16 fails on the code: for the template `feedbackQuery`, with the variables `a` and
`b` and the clean key `b`, and one input measurement that carries `a` alone, there is
one pair of a variable and an input measurement that carries it; `Apply` sends two
requests when the service answers with a marked field, the second one binding `b` to
the value it has just added, and one request when the service cannot be reached. -/
theorem request_count_depends_on_answers :
    ParseGraphQLVars feedbackQuery = ["a", "b"] ∧
    (expectedRequests feedbackProcessor (ParseGraphQLVars feedbackQuery) [onlyA]).length = 1 ∧
    (feedbackProcessor.Apply noFloats (fun _ => true) answeringService [onlyA]).2.map
      (fun req => req.body.Variables) = [[("a", "1")], [("b", "x")]] ∧
    (feedbackProcessor.Apply noFloats (fun _ => true) deadService [onlyA]).2.map
      (fun req => req.body.Variables) = [[("a", "1")]] := by
  decide

/-- Witness of C16: for the template `urlQuery`, none of whose variables is a clean key,
two measurements that carry `url` and one that does not give two requests. -/
theorem one_request_per_supplied_variable_witness :
    (fun _ => true) (NetboxProcessor.mk urlQuery "u" "t").Url = true ∧
    ((NetboxProcessor.mk urlQuery "u" "t").Apply noFloats (fun _ => true) answeringService
      [urlMetric, onlyA, urlMetric]).2.map (fun req => req.body.Variables) =
      [[("url", "device1")], [("url", "device1")]] ∧
    (∀ aliasMap gqlVar sent,
      ((NetboxProcessor.mk urlQuery "u" "t").applyVar noFloats (fun _ => true) answeringService
        aliasMap gqlVar [urlMetric, onlyA, urlMetric] sent).2 =
        sent ++ requestsFor (NetboxProcessor.mk urlQuery "u" "t") gqlVar
          [urlMetric, onlyA, urlMetric]) :=
  ⟨rfl, by decide,
    (one_request_per_supplied_variable (NetboxProcessor.mk urlQuery "u" "t") noFloats
      (fun _ => true) answeringService [urlMetric, onlyA, urlMetric] rfl).1⟩

/-! ## Initialisation -/

/-- C17: `Init` never returns an error, sets `MaxParallel` to 10 when it is not positive,
leaves the processor as it is when `MaxParallel` is at least 1, and changes no other
field; after `Init` the pool size is at least 1, and a second `Init` changes nothing. -/
theorem Init_defaults_pool_size (g : GraphQLProcessor) :
    g.Init.2 = none ∧
    (g.MaxParallel ≤ 0 → g.Init.1.MaxParallel = 10) ∧
    (1 ≤ g.MaxParallel → g.Init.1 = g) ∧
    g.Init.1 = { g with MaxParallel := g.Init.1.MaxParallel } ∧
    1 ≤ g.Init.1.MaxParallel ∧
    g.Init.1.Init = g.Init := by
  by_cases h : g.MaxParallel ≤ 0
  · have hinit : g.Init = ({ g with MaxParallel := 10 }, none) := by
      simp [GraphQLProcessor.Init, h]
    rw [hinit]
    refine ⟨rfl, fun _ => rfl, fun h1 => by omega, rfl, by show (1 : Int) ≤ 10; decide, ?_⟩
    simp [GraphQLProcessor.Init]
  · have hinit : g.Init = (g, none) := by
      simp [GraphQLProcessor.Init, h]
    rw [hinit]
    exact ⟨rfl, fun h0 => absurd h0 h, fun _ => rfl, rfl, by show 1 ≤ g.MaxParallel; omega, hinit⟩

/-- Witness of C17: an unset pool size and a negative one become 10, a pool size of 4
stays 4. -/
theorem Init_defaults_pool_size_witness :
    ({ (startedWith itemQuery) with MaxParallel := 0 }).Init.1.MaxParallel = 10 ∧
    ({ (startedWith itemQuery) with MaxParallel := -3 }).Init.1.MaxParallel = 10 ∧
    ({ (startedWith itemQuery) with MaxParallel := 4 }).Init.1.MaxParallel = 4 ∧
    ({ (startedWith itemQuery) with MaxParallel := 4 }).Init.2 = none := by
  decide

/-! ## Kinds of recorded values -/

/-- C19, as the code has it: the extractor records the node stored under a marker,
whatever its kind. When every node stored under a marker of the alias map, anywhere in
the tree, is a scalar, every recorded value is a scalar. -/
theorem recorded_values_scalar_when_marked_are (t : Json) (aliasMap : List (String × String))
    (hscalar : ∀ cleanKey marker val, (cleanKey, marker) ∈ aliasMap → HasMember t marker val →
      val.isScalar = true) :
    ∀ k v, mapGet k (extractAliasedFields t aliasMap []) = some v →
      v.isScalar = true ∧ ∃ marker, (k, marker) ∈ aliasMap ∧ HasMember t marker v := by
  intro k v hv
  obtain ⟨marker, h1, h2⟩ := extract_key_is_cleanKey t aliasMap k v hv
  have hm : HasMember t marker v := (hasMember_iff t marker v).mpr h2
  exact ⟨hscalar k marker v h1 hm, marker, h1, hm⟩

/-- C19 fails on the code: in the tree `{"__tag_site": {"name": "NYC"}}` the marked
field is an object; the extractor records that object for `site`, and the tag written
onto the measurement is its stringification `map[name:NYC]`. -/
theorem object_value_is_recorded :
    mapGet "site" (extractAliasedFields nestedSiteTree deviceAliases []) =
      some (.obj [("name", .str "NYC")]) ∧
    (Json.obj [("name", .str "NYC")]).isScalar = false ∧
    (addTags noFloats (extractAliasedFields nestedSiteTree deviceAliases []) itemMetric).tags =
      [("id", "42"), ("site", "map[name:NYC]")] :=
  ⟨rfl, rfl, by decide⟩

theorem deviceTree_marked_are_scalar :
    ∀ cleanKey marker val, (cleanKey, marker) ∈ deviceAliases → HasMember deviceTree marker val →
      val.isScalar = true := by
  intro cleanKey marker val hmem hhas
  have hpair := (hasMember_iff deviceTree marker val).mp hhas
  simp [deviceTree, memberPairs, memberPairsMembers] at hpair
  rcases hpair with ⟨_, h⟩ | ⟨hk, _⟩ | ⟨_, h⟩
  · rw [h]; rfl
  · subst hk
    simp [deviceAliases] at hmem
  · rw [h]; rfl

/-- Witness of C19: in the device example every marked field is a string, and so is
every recorded value. -/
theorem recorded_values_scalar_when_marked_are_witness :
    (∀ cleanKey marker val, (cleanKey, marker) ∈ deviceAliases →
      HasMember deviceTree marker val → val.isScalar = true) ∧
    (∀ k v, mapGet k (extractAliasedFields deviceTree deviceAliases []) = some v →
      v.isScalar = true ∧ ∃ marker, (k, marker) ∈ deviceAliases ∧ HasMember deviceTree marker v) :=
  ⟨deviceTree_marked_are_scalar,
   recorded_values_scalar_when_marked_are deviceTree deviceAliases deviceTree_marked_are_scalar⟩
